import Mathlib

/-!
The LMSM assembler (`src/c/lmsm/src/assembler.c`): a shallow embedding of the
two-phase assembler and a verification of its specification.

Modelling conventions.

* A C string is a Lean `String`; a `char *` that may be `NULL` is an
  `Option String`.  The linked list of `instruction` nodes hanging off
  `result->root` is a `List instruction`: the `next` pointer is the list
  order and `NULL` is `[]`.
* The `int` fields and variables are `Int`.  The parser converts literals of
  any length with `sscanf(token, "%d", &value)`; the number stored in the
  `int` is the one the C library of the 64-bit platforms stores
  (`int_of_scan`): the conversion yields a `long`, which is the literal when
  the literal fits in 64 bits and `LONG_MAX` or `LONG_MIN` when it does not,
  and the `int` keeps the low 32 bits of that `long`, two's complement.  So
  `4294967296` is stored as 0 and `99999999999999999999` as -1.  The C
  standard leaves the conversion of a literal that does not fit an `int`
  undefined; the theorems that speak of the value of a literal are stated for
  literals that fit an `int`.
* The sums `100 + value_for_instruction` ... `800 + value_for_instruction` of
  the generator are C sums of two `int`s (`int_add`): the sum when it fits an
  `int`, and the low 32 bits of the sum, two's complement, when it overflows,
  which is what the machine computes (`100 + 2147483647` is -2147483549); the
  C standard leaves the overflow undefined.  The words of the encoding table
  of the specification (`encoding`) are the unbounded sums, and the two are
  compared in `stored_words_eq_encoding`.  The sums `offset + slots` of the
  parser are taken in `Int`: they are the C sums for a list of fewer than
  2 ^ 29 instructions.
* The output array `int code[...]` is a `List Int` whose length is the
  capacity of the array.  The capacity is fixed in `assembler.h`, which is not
  among the sources at hand, so it is a parameter `cap`.
* A function returns `none` where the C code dereferences the null pointer
  (`strcmp` on the `NULL` that `strtok` returned) or stores outside the bounds
  of `code`; everywhere else it returns `some` result.

The exercise `print_binary_representation` of `src/c/homework/c_homework.cpp`
is embedded in the namespace `Homework`: its `unsigned int` is a `Nat` below
`2 ^ 32`, its `char` buffer a `List Char` whose length is the size of the
buffer, and `none` again marks an access outside the buffer.
-/

set_option linter.dupNamespace false
set_option linter.unusedVariables false

namespace Homework

/-! ## The exercise `print_binary_representation` -/

/-- The store `buffer[i] = c`, defined for an index inside the buffer. -/
def buffer_store (buffer : List Char) (i : Nat) (c : Char) : Option (List Char) :=
  if i < buffer.length then some (buffer.set i c) else none

/-- The `strlen` of the C library: the index of the first NUL character,
defined when the buffer holds one. -/
def strlen : List Char → Option Nat
  | [] => none
  | c :: cs => if c = Char.ofNat 0 then some 0 else (strlen cs).map (fun n => n + 1)

/-- The first loop of `print_binary_representation`,
`for (int j = 0; j < 32; ++j)`, with `fuel` iterations left to run: the
character for the bit of `i` under `mask` goes to `buffer[j + 2]`, and the
32-bit `mask` is shifted left. -/
def print_binary_representation_fill : Nat → Nat → Nat → Nat → List Char → Option (List Char)
  | 0, _, _, _, buffer => some buffer
  | fuel + 1, j, mask, i, buffer =>
    if j < 32 then
      let mask_result := i &&& mask
      (buffer_store buffer (j + 2) (if mask_result ≠ 0 then '1' else '0')).bind fun buffer =>
      print_binary_representation_fill fuel (j + 1) ((mask <<< 1) % 4294967296) i buffer
    else some buffer

/-- The second loop of `print_binary_representation`,
`for (i = 2; i <= (length - 1) / 2; i++)`, with `fuel` iterations left to
run: `buffer[i]` and `buffer[j]` are swapped and `j` is decremented. -/
def print_binary_representation_swap : Nat → Nat → Nat → Nat → List Char → Option (List Char)
  | 0, _, _, _, buffer => some buffer
  | fuel + 1, i, j, length, buffer =>
    if i ≤ (length - 1) / 2 then
      match buffer[i]?, buffer[j]? with
      | some temp, some bj =>
        (buffer_store buffer i bj).bind fun buffer =>
        (buffer_store buffer j temp).bind fun buffer =>
        print_binary_representation_swap fuel (i + 1) (j - 1) length buffer
      | _, _ => none
    else some buffer

/-- The buffer after `print_binary_representation(i, buffer)`.  The first loop
runs 32 times; the second runs fewer than `length` times, which is the fuel
it gets. -/
def print_binary_representation (i : Nat) (buffer : List Char) : Option (List Char) :=
  (buffer_store buffer 0 '0').bind fun buffer =>
  (buffer_store buffer 1 'b').bind fun buffer =>
  (print_binary_representation_fill 32 0 1 i buffer).bind fun buffer =>
  (strlen buffer).bind fun length =>
  print_binary_representation_swap length 2 (length - 1) length buffer

/-- The C string held by a buffer: the characters before the first NUL. -/
def c_string (buffer : List Char) : String :=
  String.mk (buffer.takeWhile fun c => c ≠ Char.ofNat 0)

/-- A zero-initialised buffer of `n` characters. -/
def zeroed (n : Nat) : List Char :=
  List.replicate n (Char.ofNat 0)

/-- The binary digits of `i` from bit `n - 1` down to bit 0. -/
def binary_digits (i : Nat) : Nat → List Char
  | 0 => []
  | n + 1 => (if i.testBit n then '1' else '0') :: binary_digits i n

end Homework

namespace Lmsm

/-! ## Data model -/

/-- One node of the instruction list (`struct instruction` without `next`). -/
structure instruction where
  instruction : String
  label : Option String
  label_reference : Option String
  value : Int
  offset : Int
  slots : Int
deriving DecidableEq, Repr

/-- The compilation record (`struct compilation_result`). -/
structure compilation_result where
  root : List instruction
  error : Option String
  code : List Int
deriving DecidableEq, Repr

def ASM_ERROR_UNKNOWN_INSTRUCTION : String := "Unknown instruction"
def ASM_ERROR_ARG_REQUIRED : String := "Argument Required"
def ASM_ERROR_BAD_LABEL : String := "Bad Label"
def ASM_ERROR_OUT_OF_RANGE : String := "Number is out of range"

/-- All the instructions available on the LMSM architecture. -/
def INSTRUCTIONS : List String :=
  ["ADD", "SUB", "LDA", "STA", "BRA", "BRZ", "BRP", "INP", "OUT", "HLT", "COB", "DAT",
   "LDI",
   "CALL", "RET",
   "SPUSH", "SPUSHI", "SPOP", "SDUP", "SADD", "SSUB", "SMAX", "SMIN", "SMUL", "SDIV"]

/-- All the instructions that require an arg on the LMSM architecture. -/
def ARG_INSTRUCTIONS : List String :=
  ["ADD", "SUB", "LDA", "STA", "BRA", "BRZ", "BRP", "DAT",
   "LDI",
   "CALL",
   "SPUSHI"]

/-! ## Constructors -/

/-- The node built by `asm_make_instruction`; linking it behind `predecessor`
is the append done by the caller. -/
def asm_make_instruction (type : String) (label : Option String)
    (label_reference : Option String) (value : Int)
    (predecessor : Option instruction) : instruction :=
  { instruction := type
    label := label
    label_reference := label_reference
    value := value
    offset :=
      match predecessor with
      | some p => p.offset + p.slots
      | none => 0
    slots :=
      if type = "SPUSHI" then 2
      else if type = "CALL" then 3
      else 1 }

/-- The zeroed record of `calloc(1, sizeof(compilation_result))`, for an
output array of `cap` words. -/
def asm_make_compilation_result (cap : Nat) : compilation_result :=
  { root := [], error := none, code := List.replicate cap 0 }

/-! ## Helpers -/

def asm_is_instruction (token : String) : Bool :=
  INSTRUCTIONS.any (fun i => token == i)

def asm_instruction_requires_arg (token : String) : Bool :=
  ARG_INSTRUCTIONS.any (fun i => token == i)

/-- The `while` loop of `asm_is_num`: every remaining character is a digit. -/
def asm_is_num_loop : List Char → Bool
  | [] => true
  | c :: cs => if c < '0' ∨ '9' < c then false else asm_is_num_loop cs

def asm_is_num (token : String) : Bool :=
  match token.toList with
  | '-' :: cs => asm_is_num_loop cs
  | cs => asm_is_num_loop cs

/-- Scan the list for the given label, return -1 if not found. -/
def asm_find_label : List instruction → String → Int
  | [], _ => -1
  | root :: next, label =>
    if root.label = some label then root.offset
    else asm_find_label next label

/-! ## Scanning -/

/-- All the tokens that the successive `strtok(_, " \n")` calls return: the
maximal runs of characters other than space and newline.  `cur` is the token
being read, last character first. -/
def strtok_chars : List Char → List Char → List String
  | [], cur => if cur = [] then [] else [String.mk cur.reverse]
  | c :: cs, cur =>
    if c = ' ' ∨ c = '\n' then
      if cur = [] then strtok_chars cs [] else String.mk cur.reverse :: strtok_chars cs []
    else strtok_chars cs (c :: cur)

def strtok_all (src : String) : List String :=
  strtok_chars src.toList []

/-- Value of a run of decimal digits, most significant first. -/
def digits_value : List Char → Nat → Nat
  | [], acc => acc
  | c :: cs, acc => digits_value cs (10 * acc + (c.toNat - '0'.toNat))

/-- The `int` that holds the low 32 bits of `n`, two's complement: `n` itself
when `n` fits an `int`. -/
def int_trunc (n : Int) : Int :=
  (n + 2147483648) % 4294967296 - 2147483648

/-- The C sum `a + b` of two `int`s, as the machine computes it: the sum when
it fits an `int`, and its low 32 bits when it overflows. -/
def int_add (a b : Int) : Int :=
  int_trunc (a + b)

/-- The `long` that the conversion of the C library (`strtol`) yields for the
number `n` read from the digits: `n` when it fits in 64 bits, and `LONG_MAX`
or `LONG_MIN` when it does not. -/
def long_of_scan (n : Int) : Int :=
  if n > 9223372036854775807 then 9223372036854775807
  else if n < -9223372036854775808 then -9223372036854775808
  else n

/-- The `int` that `sscanf("%d")` stores for the number `n` read from the
digits: the `long` of the conversion, cut to 32 bits. -/
def int_of_scan (n : Int) : Int :=
  int_trunc (long_of_scan n)

/-- The content of `value` after `sscanf(token, "%d", &value)` on a token
accepted by `asm_is_num`: an optional `-` and the digits; with no digit at
all nothing is converted and `value` keeps its content. -/
def sscanf_d (token : String) (value : Int) : Int :=
  match token.toList with
  | '-' :: cs => if cs = [] then value else int_of_scan (- (digits_value cs 0 : Int))
  | cs => if cs = [] then value else int_of_scan (digits_value cs 0 : Int)

/-! ## Assembly parsing -/

/-- The `while (token != NULL)` loop of `asm_parse_src`.  The argument list
holds the current token followed by the tokens `strtok` has yet to return;
`chain` is the list built so far (its last node is `last_instruction`) and
`error` is `result->error`.  Every iteration consumes a token, so the loop
is run with as much fuel as there are tokens. -/
def asm_parse_loop : Nat → List instruction → Option String → List String →
    Option (List instruction × Option String)
  | 0, chain, error, _ => some (chain, error)
  | _ + 1, chain, error, [] => some (chain, error)
  | fuel + 1, chain, error, token :: rest =>
    -- if(!asm_is_instruction(token)) { label = token; token = strtok(NULL, " \n"); }
    let label : Option String := if !asm_is_instruction token then some token else none
    let toks : List String := if !asm_is_instruction token then rest else token :: rest
    match toks with
    | [] => none -- asm_is_instruction(NULL): strcmp on a null pointer
    | token :: rest =>
      if !asm_is_instruction token then
        some (chain, some ASM_ERROR_UNKNOWN_INSTRUCTION)
      else
        let instruction := token
        if asm_instruction_requires_arg instruction then
          match rest with
          | [] => some (chain, some ASM_ERROR_ARG_REQUIRED)
          | token :: rest =>
            let value : Int := if asm_is_num token then sscanf_d token 0 else 0
            let label_reference : Option String := if asm_is_num token then none else some token
            let current_instruction :=
              asm_make_instruction instruction label label_reference value chain.getLast?
            -- the clamped `value` is stored nowhere: the node was made before
            let error := if value > 999 then some ASM_ERROR_OUT_OF_RANGE else error
            let value := if value > 999 then 999 else value
            let error := if value < -999 then some ASM_ERROR_OUT_OF_RANGE else error
            asm_parse_loop fuel (chain ++ [current_instruction]) error rest
        else
          let current_instruction :=
            asm_make_instruction instruction label none 0 chain.getLast?
          asm_parse_loop fuel (chain ++ [current_instruction]) error rest

/-- The parser.  `result->root` is set to the first node made only when it was
`NULL`; the nodes are chained through `next`, so a `root` that was `NULL` ends
up heading the whole chain. -/
def asm_parse_src (result : compilation_result) (original_src : String) :
    Option compilation_result :=
  let toks := strtok_all original_src
  match asm_parse_loop toks.length [] result.error toks with
  | none => none
  | some (chain, error) =>
    some { result with
      root := if result.root = [] then chain else result.root
      error := error }

/-! ## Machine code generation -/

/-- The store `result->code[i] = w`, defined for an index inside the array. -/
def code_store (result : compilation_result) (i : Int) (w : Int) : Option compilation_result :=
  if 0 ≤ i ∧ i < result.code.length then
    some { result with code := result.code.set i.toNat w }
  else none

def asm_gen_code_for_instruction (result : compilation_result) (instruction : instruction) :
    Option compilation_result :=
  let value_for_instruction : Int :=
    match instruction.label_reference with
    | some label_reference => asm_find_label result.root label_reference
    | none => instruction.value
  let result : compilation_result :=
    match instruction.label_reference with
    | some _ =>
      if value_for_instruction = -1 then { result with error := some ASM_ERROR_BAD_LABEL }
      else result
    | none => result
  if instruction.instruction = "ADD" then
    code_store result instruction.offset (int_add 100 value_for_instruction)
  else if instruction.instruction = "SUB" then
    code_store result instruction.offset (int_add 200 value_for_instruction)
  else if instruction.instruction = "STA" then
    code_store result instruction.offset (int_add 300 value_for_instruction)
  else if instruction.instruction = "LDI" then
    code_store result instruction.offset (int_add 400 value_for_instruction)
  else if instruction.instruction = "LDA" then
    code_store result instruction.offset (int_add 500 value_for_instruction)
  else if instruction.instruction = "BRA" then
    code_store result instruction.offset (int_add 600 value_for_instruction)
  else if instruction.instruction = "BRZ" then
    code_store result instruction.offset (int_add 700 value_for_instruction)
  else if instruction.instruction = "BRP" then
    code_store result instruction.offset (int_add 800 value_for_instruction)
  else if instruction.instruction = "INP" then
    code_store result instruction.offset 901
  else if instruction.instruction = "OUT" then
    code_store result instruction.offset 902
  else if instruction.instruction = "DAT" then
    code_store result instruction.offset value_for_instruction
  else if instruction.instruction = "CALL" then
    (code_store result instruction.offset 920).bind fun result =>
    (code_store result (instruction.offset + 1) (int_add 400 value_for_instruction)).bind fun result =>
    code_store result (instruction.offset + 2) 910
  else if instruction.instruction = "RET" then
    code_store result instruction.offset 911
  else if instruction.instruction = "SPUSH" then
    code_store result instruction.offset 920
  else if instruction.instruction = "SPUSHI" then
    (code_store result instruction.offset 920).bind fun result =>
    code_store result (instruction.offset + 1) (int_add 400 value_for_instruction)
  else if instruction.instruction = "SPOP" then
    code_store result instruction.offset 921
  else if instruction.instruction = "SDUP" then
    code_store result instruction.offset 922
  else if instruction.instruction = "SADD" then
    code_store result instruction.offset 923
  else if instruction.instruction = "SSUB" then
    code_store result instruction.offset 924
  else if instruction.instruction = "SMAX" then
    code_store result instruction.offset 925
  else if instruction.instruction = "SMIN" then
    code_store result instruction.offset 926
  else if instruction.instruction = "SMUL" then
    code_store result instruction.offset 927
  else if instruction.instruction = "SDIV" then
    code_store result instruction.offset 928
  else if instruction.instruction = "HLT" then
    code_store result instruction.offset 0
  else if instruction.instruction = "COB" then
    code_store result instruction.offset 0
  else
    some { result with error := some ASM_ERROR_UNKNOWN_INSTRUCTION }

/-- The `while (current != NULL)` loop of `asm_gen_code`. -/
def asm_gen_code_loop (result : compilation_result) : List instruction → Option compilation_result
  | [] => some result
  | current :: next =>
    (asm_gen_code_for_instruction result current).bind fun result =>
    asm_gen_code_loop result next

def asm_gen_code (result : compilation_result) : Option compilation_result :=
  asm_gen_code_loop result result.root

/-! ## Main API -/

def asm_assemble (cap : Nat) (src : String) : Option compilation_result :=
  (asm_parse_src (asm_make_compilation_result cap) src).bind asm_gen_code

/-! ## The specification's vocabulary -/

/-- The encoding table of the specification (section 6): each mnemonic with
its words as a function of the operand. -/
def encoding_table : List (String × (Int → List Int)) :=
  [("ADD", fun op => [100 + op]),
   ("SUB", fun op => [200 + op]),
   ("STA", fun op => [300 + op]),
   ("LDI", fun op => [400 + op]),
   ("LDA", fun op => [500 + op]),
   ("BRA", fun op => [600 + op]),
   ("BRZ", fun op => [700 + op]),
   ("BRP", fun op => [800 + op]),
   ("INP", fun _ => [901]),
   ("OUT", fun _ => [902]),
   ("HLT", fun _ => [0]),
   ("COB", fun _ => [0]),
   ("DAT", fun op => [op]),
   ("CALL", fun op => [920, 400 + op, 910]),
   ("RET", fun _ => [911]),
   ("SPUSH", fun _ => [920]),
   ("SPUSHI", fun op => [920, 400 + op]),
   ("SPOP", fun _ => [921]),
   ("SDUP", fun _ => [922]),
   ("SADD", fun _ => [923]),
   ("SSUB", fun _ => [924]),
   ("SMAX", fun _ => [925]),
   ("SMIN", fun _ => [926]),
   ("SMUL", fun _ => [927]),
   ("SDIV", fun _ => [928])]

/-- The words the table gives for a mnemonic and an operand (none for a
mnemonic that has no row). -/
def encoding (mnemonic : String) (op : Int) : List Int :=
  match encoding_table.find? (fun e => e.1 == mnemonic) with
  | some e => e.2 op
  | none => []

/-- The width of the specification's data model: 3 for CALL, 2 for SPUSHI, 1
for every other mnemonic. -/
def width (mnemonic : String) : Nat :=
  if mnemonic = "CALL" then 3 else if mnemonic = "SPUSHI" then 2 else 1

/-- The array `code` with the words `ws` at the indices `offset`,
`offset + 1`, ... and every other index as it was. -/
def write_words (code : List Int) (offset : Nat) (ws : List Int) : List Int :=
  code.take offset ++ ws ++ code.drop (offset + ws.length)

/-- The operand of an instruction against the list `root`: its immediate when
it has no `label_reference`, and otherwise the offset of the first node of
`root` that carries the referenced label, that offset being an address and
not the value -1 by which a lookup reports failure. -/
def is_operand (root : List instruction) (ins : instruction) (op : Int) : Prop :=
  (ins.label_reference = none ∧ op = ins.value) ∨
  (∃ L pre j post, ins.label_reference = some L ∧ root = pre ++ j :: post ∧
    (∀ i ∈ pre, i.label ≠ some L) ∧ j.label = some L ∧ op = j.offset ∧ op ≠ -1)

/-- One statement of the source grammar `[label] mnemonic [operand]`. -/
structure statement where
  label : Option String
  mnemonic : String
  operand : Option String
deriving DecidableEq, Repr

/-- The tokens of a statement, in source order. -/
def statement.tokens (s : statement) : List String :=
  s.label.toList ++ [s.mnemonic] ++ s.operand.toList

/-- A valid statement: an optional label (a token that is not a mnemonic), a
recognized mnemonic, and an operand exactly when the mnemonic requires one. -/
def statement.valid (s : statement) : Prop :=
  (∀ l ∈ s.label, l ∉ INSTRUCTIONS) ∧ s.mnemonic ∈ INSTRUCTIONS ∧
    (s.operand.isSome = true ↔ s.mnemonic ∈ ARG_INSTRUCTIONS)

instance (s : statement) : Decidable s.valid := by
  unfold statement.valid
  infer_instance

/-- Sum of the widths of the instructions of a list. -/
def total_width (l : List instruction) : Nat :=
  (l.map fun i => width i.instruction).sum

/-- A list laid out from address `o`: recognized mnemonics, `slots` equal to
the width of the mnemonic, and every offset the sum of `o` and the widths
before it. -/
def laid_out : Int → List instruction → Prop
  | _, [] => True
  | o, i :: l =>
    i.offset = o ∧ i.slots = width i.instruction ∧ i.instruction ∈ INSTRUCTIONS ∧
      laid_out (o + width i.instruction) l

/-- The number written by a run of decimal digits. -/
def decimal (ds : List Char) : Nat :=
  ds.foldl (fun acc c => 10 * acc + (c.toNat - '0'.toNat)) 0

/-- The value of a token that is a decimal integer literal: an optional
leading `-`, then at least one decimal digit and nothing else. -/
def literal_value (t : String) : Option Int :=
  match t.toList with
  | '-' :: ds =>
    if ds ≠ [] ∧ ∀ c ∈ ds, '0' ≤ c ∧ c ≤ '9' then some (-(decimal ds : Int)) else none
  | ds =>
    if ds ≠ [] ∧ ∀ c ∈ ds, '0' ≤ c ∧ c ≤ '9' then some (decimal ds : Int) else none

/-! ## What the two phases compute, step by step -/

/-- The node that one iteration of the parser makes for a statement. -/
def statement.node (s : statement) (predecessor : Option instruction) : instruction :=
  asm_make_instruction s.mnemonic s.label
    (match s.operand with
      | some token => if asm_is_num token then none else some token
      | none => none)
    (match s.operand with
      | some token => if asm_is_num token then sscanf_d token 0 else 0
      | none => 0)
    predecessor

/-- The error slot after the iteration of the parser for a statement. -/
def statement.error (s : statement) (error : Option String) : Option String :=
  match s.operand with
  | some token =>
    if (if asm_is_num token then sscanf_d token 0 else 0) > 999 ∨
        (if asm_is_num token then sscanf_d token 0 else 0) < -999
    then some ASM_ERROR_OUT_OF_RANGE else error
  | none => error

/-- The list after the iterations of the parser for a sequence of statements. -/
def build (chain : List instruction) : List statement → List instruction
  | [] => chain
  | s :: ss => build (chain ++ [s.node chain.getLast?]) ss

/-- The error slot after the iterations of the parser for a sequence of
statements. -/
def build_error (error : Option String) : List statement → Option String
  | [] => error
  | s :: ss => build_error (s.error error) ss

/-- The operand that `asm_gen_code_for_instruction` computes before it
encodes: the looked-up label when there is a `label_reference`, the
immediate otherwise. -/
def gen_operand (root : List instruction) (ins : instruction) : Int :=
  match ins.label_reference with
  | some label_reference => asm_find_label root label_reference
  | none => ins.value

/-- The error slot after the label lookup of
`asm_gen_code_for_instruction`. -/
def gen_error (root : List instruction) (error : Option String) (ins : instruction) :
    Option String :=
  match ins.label_reference with
  | some label_reference =>
    if asm_find_label root label_reference = -1 then some ASM_ERROR_BAD_LABEL
    else error
  | none => error

/-- The error slot after the loop of `asm_gen_code` over recognized
mnemonics. -/
def gen_loop_error (root : List instruction) (error : Option String) :
    List instruction → Option String
  | [] => error
  | i :: l => gen_loop_error root (gen_error root error i) l

/-- The words that `asm_gen_code_for_instruction` stores for each mnemonic, as
a function of `value_for_instruction`: the rows of the encoding table with
the sums taken as C sums of `int`s. -/
def stored_table : List (String × (Int → List Int)) :=
  [("ADD", fun v => [int_add 100 v]),
   ("SUB", fun v => [int_add 200 v]),
   ("STA", fun v => [int_add 300 v]),
   ("LDI", fun v => [int_add 400 v]),
   ("LDA", fun v => [int_add 500 v]),
   ("BRA", fun v => [int_add 600 v]),
   ("BRZ", fun v => [int_add 700 v]),
   ("BRP", fun v => [int_add 800 v]),
   ("INP", fun _ => [901]),
   ("OUT", fun _ => [902]),
   ("HLT", fun _ => [0]),
   ("COB", fun _ => [0]),
   ("DAT", fun v => [v]),
   ("CALL", fun v => [920, int_add 400 v, 910]),
   ("RET", fun _ => [911]),
   ("SPUSH", fun _ => [920]),
   ("SPUSHI", fun v => [920, int_add 400 v]),
   ("SPOP", fun _ => [921]),
   ("SDUP", fun _ => [922]),
   ("SADD", fun _ => [923]),
   ("SSUB", fun _ => [924]),
   ("SMAX", fun _ => [925]),
   ("SMIN", fun _ => [926]),
   ("SMUL", fun _ => [927]),
   ("SDIV", fun _ => [928])]

/-- The words stored for a mnemonic and a `value_for_instruction` (none for a
mnemonic outside the 25). -/
def stored_words (mnemonic : String) (v : Int) : List Int :=
  match stored_table.find? (fun e => e.1 == mnemonic) with
  | some e => e.2 v
  | none => []

/-- A number that fits a 32-bit `int`. -/
def fits_int (n : Int) : Prop :=
  -2147483648 ≤ n ∧ n ≤ 2147483647

instance (n : Int) : Decidable (fits_int n) := by
  unfold fits_int
  infer_instance

/-- The words stored for a list of instructions, in list order. -/
def encoded (root : List instruction) (l : List instruction) : List Int :=
  l.flatMap fun i => stored_words i.instruction (gen_operand root i)

/-- The number the parser stores for an operand token: what `sscanf`
converted when `asm_is_num` accepts the token, 0 otherwise. -/
def stored_value (token : String) : Int :=
  if asm_is_num token then sscanf_d token 0 else 0

/-- A statement for which the parser records OutOfRange: the number stored
for its operand is outside -999..999. -/
def statement.out_of_range (s : statement) : Prop :=
  match s.operand with
  | some token => stored_value token > 999 ∨ stored_value token < -999
  | none => False

instance (s : statement) : Decidable s.out_of_range := by
  unfold statement.out_of_range
  cases s.operand <;> infer_instance

/-- The words `ws` stored one after the other from `code[i]` on, as
`asm_gen_code_for_instruction` stores the words of an instruction. -/
def code_store_list (result : compilation_result) (i : Int) :
    List Int → Option compilation_result
  | [] => some result
  | w :: ws => (code_store result i w).bind fun result => code_store_list result (i + 1) ws

/-- The failure of one instruction in code generation against the list `root`:
UnknownInstruction for a mnemonic outside the 25 recognized ones, otherwise
BadLabel for a `label_reference` that no node of `root` carries as its label,
otherwise none. -/
def gen_failure (root : List instruction) (ins : instruction) : Option String :=
  if ins.instruction ∉ INSTRUCTIONS then some ASM_ERROR_UNKNOWN_INSTRUCTION
  else
    match ins.label_reference with
    | some L => if ∀ j ∈ root, j.label ≠ some L then some ASM_ERROR_BAD_LABEL else none
    | none => none

/-! ## Lemmas on the output array -/

theorem write_words_nil (code : List Int) (n : Nat) : write_words code n [] = code := by
  simp [write_words]

theorem write_words_cons (code : List Int) (n : Nat) (a : Int) (ws : List Int)
    (h : n < code.length) :
    write_words code n (a :: ws) = write_words (code.set n a) (n + 1) ws := by
  have h1 : (code.set n a).take (n + 1) = code.take n ++ [a] := by
    rw [List.set_eq_take_append_cons_drop, if_pos h]
    rw [List.take_append_eq_append_take]
    simp [List.length_take, Nat.min_eq_left (Nat.le_of_lt h)]
  have h2 : (code.set n a).drop (n + 1 + ws.length) = code.drop (n + (ws.length + 1)) := by
    rw [List.drop_set_of_lt a code (by omega)]
    congr 1
    omega
  simp only [write_words, h1, h2, List.length_cons]
  simp

theorem code_store_eq (result : compilation_result) (i : Int) (w : Int)
    (h0 : 0 ≤ i) (h1 : i < result.code.length) :
    code_store result i w = some { result with code := result.code.set i.toNat w } := by
  simp [code_store, h0, h1]


/-! ## Code generation for one instruction -/

theorem mem_INSTRUCTIONS_iff (m : String) :
    m ∈ INSTRUCTIONS ↔
      m = "ADD" ∨ m = "SUB" ∨ m = "LDA" ∨ m = "STA" ∨ m = "BRA" ∨ m = "BRZ" ∨ m = "BRP" ∨
      m = "INP" ∨ m = "OUT" ∨ m = "HLT" ∨ m = "COB" ∨ m = "DAT" ∨ m = "LDI" ∨ m = "CALL" ∨
      m = "RET" ∨ m = "SPUSH" ∨ m = "SPUSHI" ∨ m = "SPOP" ∨ m = "SDUP" ∨ m = "SADD" ∨
      m = "SSUB" ∨ m = "SMAX" ∨ m = "SMIN" ∨ m = "SMUL" ∨ m = "SDIV" := by
  simp [INSTRUCTIONS]

theorem encoding_length (m : String) (op : Int) (hm : m ∈ INSTRUCTIONS) :
    (encoding m op).length = width m := by
  rw [mem_INSTRUCTIONS_iff] at hm
  rcases hm with h | h | h | h | h | h | h | h | h | h | h | h | h | h | h | h | h | h | h | h |
    h | h | h | h | h <;> subst h <;> rfl

theorem stored_words_length (m : String) (v : Int) (hm : m ∈ INSTRUCTIONS) :
    (stored_words m v).length = width m := by
  rw [mem_INSTRUCTIONS_iff] at hm
  rcases hm with h | h | h | h | h | h | h | h | h | h | h | h | h | h | h | h | h | h | h | h |
    h | h | h | h | h <;> subst h <;> rfl

theorem int_trunc_id (n : Int) (h1 : -2147483648 ≤ n) (h2 : n ≤ 2147483647) :
    int_trunc n = n := by
  unfold int_trunc
  omega

/-- The stored words are the words of the table when these fit an `int`. -/
theorem stored_words_eq_encoding (m : String) (op : Int)
    (h : ∀ w ∈ encoding m op, fits_int w) : stored_words m op = encoding m op := by
  by_cases hm : m ∈ INSTRUCTIONS
  · rw [mem_INSTRUCTIONS_iff] at hm
    rcases hm with h' | h' | h' | h' | h' | h' | h' | h' | h' | h' | h' | h' | h' | h' | h' |
      h' | h' | h' | h' | h' | h' | h' | h' | h' | h' <;> subst h' <;>
    · simp only [encoding, encoding_table, List.find?, String.reduceBEq, String.reduceEq,
        List.mem_cons, List.mem_singleton, List.not_mem_nil, or_false, forall_eq_or_imp,
        forall_eq, fits_int, beq_self_eq_true] at h
      first
        | rfl
        | (simp only [stored_words, stored_table, encoding, encoding_table, List.find?,
            String.reduceBEq, String.reduceEq, beq_self_eq_true, int_add]
           first
             | rw [int_trunc_id _ h.1 h.2]
             | rw [int_trunc_id _ h.2.1.1 h.2.1.2]
             | rw [int_trunc_id _ h.2.1 h.2.2])
  · rw [mem_INSTRUCTIONS_iff] at hm
    simp only [not_or] at hm
    obtain ⟨h1, h2, h3, h4, h5, h6, h7, h8, h9, h10, h11, h12, h13, h14, h15, h16, h17, h18,
      h19, h20, h21, h22, h23, h24, h25⟩ := hm
    have hb : ∀ s : String, ¬ m = s → (s == m) = false := fun s h => by
      rw [beq_eq_false_iff_ne]
      exact Ne.symm h
    simp [stored_words, stored_table, encoding, encoding_table, List.find?, hb _ h1, hb _ h2,
      hb _ h3, hb _ h4, hb _ h5, hb _ h6, hb _ h7, hb _ h8, hb _ h9, hb _ h10, hb _ h11,
      hb _ h12, hb _ h13, hb _ h14, hb _ h15, hb _ h16, hb _ h17, hb _ h18, hb _ h19,
      hb _ h20, hb _ h21, hb _ h22, hb _ h23, hb _ h24, hb _ h25]

/-- The words of the table fit an `int` when the operand leaves room for the
largest base, 800. -/
theorem encoding_fits_int (m : String) (op : Int) (h1 : -2147483648 ≤ op)
    (h2 : op ≤ 2147482847) : ∀ w ∈ encoding m op, fits_int w := by
  by_cases hm : m ∈ INSTRUCTIONS
  · rw [mem_INSTRUCTIONS_iff] at hm
    rcases hm with h | h | h | h | h | h | h | h | h | h | h | h | h | h | h | h | h | h | h | h |
      h | h | h | h | h <;> subst h <;>
    · intro w hw
      simp [encoding, encoding_table] at hw
      unfold fits_int
      omega
  · rw [mem_INSTRUCTIONS_iff] at hm
    simp only [not_or] at hm
    obtain ⟨h1, h2, h3, h4, h5, h6, h7, h8, h9, h10, h11, h12, h13, h14, h15, h16, h17, h18,
      h19, h20, h21, h22, h23, h24, h25⟩ := hm
    have hb : ∀ s : String, ¬ m = s → (s == m) = false := fun s h => by
      rw [beq_eq_false_iff_ne]
      exact Ne.symm h
    intro w hw
    simp [encoding, encoding_table, List.find?, hb _ h1, hb _ h2, hb _ h3, hb _ h4, hb _ h5,
      hb _ h6, hb _ h7, hb _ h8, hb _ h9, hb _ h10, hb _ h11, hb _ h12, hb _ h13, hb _ h14,
      hb _ h15, hb _ h16, hb _ h17, hb _ h18, hb _ h19, hb _ h20, hb _ h21, hb _ h22,
      hb _ h23, hb _ h24, hb _ h25] at hw

theorem stored_words_eq_encoding_of_bounds (m : String) (op : Int) (h1 : -2147483648 ≤ op)
    (h2 : op ≤ 2147482847) : stored_words m op = encoding m op :=
  stored_words_eq_encoding m op (encoding_fits_int m op h1 h2)

/-- One store, as an update of the array. -/
theorem store_one (result : compilation_result) (i : Int) (a : Int)
    (h0 : 0 ≤ i) (h1 : i + 1 ≤ result.code.length) :
    code_store result i a = some { result with code := write_words result.code i.toNat [a] } := by
  have hlt : i.toNat < result.code.length := by omega
  rw [code_store_eq result i a h0 (by omega), write_words_cons _ _ _ _ hlt, write_words_nil]

/-- Two stores at consecutive indices. -/
theorem store_two (result : compilation_result) (i : Int) (a b : Int)
    (h0 : 0 ≤ i) (h1 : i + 2 ≤ result.code.length) :
    ((code_store result i a).bind fun result => code_store result (i + 1) b) =
      some { result with code := write_words result.code i.toNat [a, b] } := by
  have hlt : i.toNat < result.code.length := by omega
  rw [code_store_eq result i a h0 (by omega)]
  simp only [Option.some_bind]
  rw [store_one _ (i + 1) b (by omega) (by simp only [List.length_set]; omega)]
  rw [write_words_cons _ _ a _ hlt]
  have : (i + 1).toNat = i.toNat + 1 := by omega
  simp [this]

/-- Three stores at consecutive indices. -/
theorem store_three (result : compilation_result) (i : Int) (a b c : Int)
    (h0 : 0 ≤ i) (h1 : i + 3 ≤ result.code.length) :
    ((code_store result i a).bind fun result =>
      (code_store result (i + 1) b).bind fun result => code_store result (i + 2) c) =
      some { result with code := write_words result.code i.toNat [a, b, c] } := by
  have hlt : i.toNat < result.code.length := by omega
  rw [code_store_eq result i a h0 (by omega)]
  simp only [Option.some_bind]
  have h2 : i + 1 + 1 = i + 2 := by ring
  have := store_two { result with code := result.code.set i.toNat a } (i + 1) b c (by omega)
    (by simp only [List.length_set]; omega)
  rw [h2] at this
  rw [this, write_words_cons _ _ a _ hlt]
  have : (i + 1).toNat = i.toNat + 1 := by omega
  simp [this]

/-- What `asm_gen_code_for_instruction` does for a recognized mnemonic whose
words fit in the array: the error slot takes the outcome of the label lookup
and the words of the mnemonic, with their C sums, are stored at the offset of
the instruction. -/
theorem gen_recognized (result : compilation_result) (ins : instruction)
    (hm : ins.instruction ∈ INSTRUCTIONS) (h0 : 0 ≤ ins.offset)
    (hfit : ins.offset + width ins.instruction ≤ result.code.length) :
    asm_gen_code_for_instruction result ins =
      some { root := result.root
             error := gen_error result.root result.error ins
             code := write_words result.code ins.offset.toNat
               (stored_words ins.instruction (gen_operand result.root ins)) } := by
  rw [mem_INSTRUCTIONS_iff] at hm
  cases hl : ins.label_reference with
  | none =>
    rcases hm with h | h | h | h | h | h | h | h | h | h | h | h | h | h | h | h | h | h | h | h |
      h | h | h | h | h <;>
    · simp only [h, width, String.reduceEq, reduceIte, Nat.cast_ofNat, Nat.cast_one] at hfit
      simp only [asm_gen_code_for_instruction, hl, h, String.reduceEq, reduceIte]
      first
        | rw [store_one _ _ _ h0 (by exact hfit)]
        | rw [store_two _ _ _ _ h0 (by exact hfit)]
        | rw [store_three _ _ _ _ _ h0 (by exact hfit)]
      simp [gen_error, gen_operand, hl, stored_words, stored_table, h]
  | some L =>
    by_cases hv : asm_find_label result.root L = -1
    · rcases hm with h | h | h | h | h | h | h | h | h | h | h | h | h | h | h | h | h | h | h |
        h | h | h | h | h | h <;>
      · simp only [h, width, String.reduceEq, reduceIte, Nat.cast_ofNat, Nat.cast_one] at hfit
        simp only [asm_gen_code_for_instruction, hl, hv, h, String.reduceEq, reduceIte]
        first
          | rw [store_one _ _ _ h0 (by exact hfit)]
          | rw [store_two _ _ _ _ h0 (by exact hfit)]
          | rw [store_three _ _ _ _ _ h0 (by exact hfit)]
        simp [gen_error, gen_operand, hl, hv, stored_words, stored_table, h]
    · rcases hm with h | h | h | h | h | h | h | h | h | h | h | h | h | h | h | h | h | h | h |
        h | h | h | h | h | h <;>
      · simp only [h, width, String.reduceEq, reduceIte, Nat.cast_ofNat, Nat.cast_one] at hfit
        simp only [asm_gen_code_for_instruction, hl, hv, h, String.reduceEq, reduceIte]
        first
          | rw [store_one _ _ _ h0 (by exact hfit)]
          | rw [store_two _ _ _ _ h0 (by exact hfit)]
          | rw [store_three _ _ _ _ _ h0 (by exact hfit)]
        simp [gen_error, gen_operand, hl, hv, stored_words, stored_table, h]

/-- What `asm_gen_code_for_instruction` does for a mnemonic outside the 25:
no store, and the error slot is set. -/
theorem gen_unrecognized (result : compilation_result) (ins : instruction)
    (hm : ins.instruction ∉ INSTRUCTIONS) :
    asm_gen_code_for_instruction result ins =
      some { result with error := some ASM_ERROR_UNKNOWN_INSTRUCTION } := by
  rw [mem_INSTRUCTIONS_iff] at hm
  simp only [not_or] at hm
  obtain ⟨h1, h2, h3, h4, h5, h6, h7, h8, h9, h10, h11, h12, h13, h14, h15, h16, h17, h18, h19,
    h20, h21, h22, h23, h24, h25⟩ := hm
  simp only [asm_gen_code_for_instruction, h1, h2, h3, h4, h5, h6, h7, h8, h9, h10, h11, h12,
    h13, h14, h15, h16, h17, h18, h19, h20, h21, h22, h23, h24, h25, reduceIte]
  cases hl : ins.label_reference with
  | none => rfl
  | some L => by_cases hv : asm_find_label result.root L = -1 <;> simp [hv]

/-! ## Label lookup -/

theorem asm_find_label_absent (l : List instruction) (L : String)
    (h : ∀ i ∈ l, i.label ≠ some L) : asm_find_label l L = -1 := by
  induction l with
  | nil => rfl
  | cons a l ih =>
    have ha : a.label ≠ some L := h a (List.mem_cons_self _ _)
    have hl : ∀ i ∈ l, i.label ≠ some L := fun i hi => h i (List.mem_cons_of_mem _ hi)
    simp [asm_find_label, ha, ih hl]

theorem asm_find_label_first (pre : List instruction) (j : instruction)
    (post : List instruction) (L : String)
    (hpre : ∀ i ∈ pre, i.label ≠ some L) (hj : j.label = some L) :
    asm_find_label (pre ++ j :: post) L = j.offset := by
  induction pre with
  | nil => simp [asm_find_label, hj]
  | cons a pre ih =>
    have ha : a.label ≠ some L := hpre a (List.mem_cons_self _ _)
    have hl : ∀ i ∈ pre, i.label ≠ some L := fun i hi => hpre i (List.mem_cons_of_mem _ hi)
    simp [asm_find_label, ha, ih hl]

theorem encoding_row (m : String) (hm : m ∈ INSTRUCTIONS) :
    ∃ row ∈ encoding_table, row.1 = m ∧ ∀ op, row.2 op = encoding m op := by
  rw [mem_INSTRUCTIONS_iff] at hm
  rcases hm with h | h | h | h | h | h | h | h | h | h | h | h | h | h | h | h | h | h | h | h |
    h | h | h | h | h <;> subst h <;>
  · simp only [encoding_table, List.mem_cons, List.mem_singleton, Prod.exists]
    refine ⟨_, _, ?_, rfl, fun op => rfl⟩
    simp
    rfl

theorem gen_operand_of_is_operand (root : List instruction) (ins : instruction) (op : Int)
    (hop : is_operand root ins op) : gen_operand root ins = op := by
  rcases hop with ⟨hl, hv⟩ | ⟨L, pre, j, post, hl, hroot, hpre, hj, hv, _⟩
  · simp [gen_operand, hl, hv]
  · simp [gen_operand, hl, hroot, asm_find_label_first pre j post L hpre hj, hv]

theorem gen_error_of_is_operand (result : compilation_result) (ins : instruction) (op : Int)
    (hop : is_operand result.root ins op) :
    gen_error result.root result.error ins = result.error := by
  rcases hop with ⟨hl, _⟩ | ⟨L, pre, j, post, hl, hroot, hpre, hj, hv, hne⟩
  · simp [gen_error, hl]
  · have := asm_find_label_first pre j post L hpre hj
    rw [← hroot, ← hv] at this
    simp [gen_error, hl, this, hne]

/-! ## The encoding of one instruction -/

/-- C1, amended: for an instruction whose mnemonic is one of the 25 recognized
ones, whose operand `op` is its immediate (no label reference) or the offset
of its resolved label, whose table words for `op` fit an `int`, and whose
words lie inside the output array, `asm_gen_code_for_instruction` stores
exactly the words that the row of the encoding table for this mnemonic gives
for `op`, starting at `code[offset]`, changes no other word, and leaves the
error slot and the list unchanged. -/
theorem asm_gen_code_for_instruction_writes_table_row (result : compilation_result)
    (ins : instruction) (op : Int)
    (hm : ins.instruction ∈ INSTRUCTIONS)
    (hop : is_operand result.root ins op)
    (hint : ∀ w ∈ encoding ins.instruction op, fits_int w)
    (h0 : 0 ≤ ins.offset)
    (hfit : ins.offset + width ins.instruction ≤ result.code.length) :
    ∃ row ∈ encoding_table, row.1 = ins.instruction ∧
      (row.2 op).length = width ins.instruction ∧
      asm_gen_code_for_instruction result ins =
        some { root := result.root
               error := result.error
               code := result.code.take ins.offset.toNat ++ row.2 op ++
                 result.code.drop (ins.offset.toNat + (row.2 op).length) } := by
  obtain ⟨row, hrow, hname, hwords⟩ := encoding_row ins.instruction hm
  refine ⟨row, hrow, hname, ?_, ?_⟩
  · rw [hwords, encoding_length _ _ hm]
  · rw [gen_recognized result ins hm h0 hfit, gen_operand_of_is_operand _ _ _ hop,
      gen_error_of_is_operand _ _ _ hop, hwords, stored_words_eq_encoding _ _ hint,
      write_words]

/-- A witness for C1: `X BRA Y` at offset 0 in the list of `X BRA Y / Y HLT`,
whose operand is the offset 1 of `Y`. -/
theorem asm_gen_code_for_instruction_writes_table_row_witness :
    ∃ row ∈ encoding_table, row.1 = "BRA" ∧ (row.2 1).length = width "BRA" ∧
      asm_gen_code_for_instruction
        { root := [⟨"BRA", some "X", some "Y", 0, 0, 1⟩, ⟨"HLT", some "Y", none, 0, 1, 1⟩]
          error := none
          code := [0, 0, 0] }
        ⟨"BRA", some "X", some "Y", 0, 0, 1⟩ =
      some { root := [⟨"BRA", some "X", some "Y", 0, 0, 1⟩, ⟨"HLT", some "Y", none, 0, 1, 1⟩]
             error := none
             code := [] ++ row.2 1 ++ List.drop (0 + (row.2 1).length) [0, 0, 0] } :=
  asm_gen_code_for_instruction_writes_table_row
    { root := [⟨"BRA", some "X", some "Y", 0, 0, 1⟩, ⟨"HLT", some "Y", none, 0, 1, 1⟩]
      error := none
      code := [0, 0, 0] }
    ⟨"BRA", some "X", some "Y", 0, 0, 1⟩ 1
    (by decide)
    (Or.inr ⟨"Y", [⟨"BRA", some "X", some "Y", 0, 0, 1⟩], ⟨"HLT", some "Y", none, 0, 1, 1⟩, [],
      rfl, rfl, by decide, rfl, rfl, by decide⟩)
    (by decide) (by decide) (by decide)

/-- C1 as stated fails: for the instruction that the parser builds from
`ADD 2147483647`, whose operand is its immediate 2147483647, the row of the
table gives the word 2147483747, which no `int` holds; the C sum
`100 + value_for_instruction` overflows and the word stored is
-2147483549. -/
theorem asm_gen_code_for_instruction_sum_overflows :
    asm_parse_src (asm_make_compilation_result 1) "ADD 2147483647" =
      some { root := [⟨"ADD", none, none, 2147483647, 0, 1⟩]
             error := some ASM_ERROR_OUT_OF_RANGE
             code := [0] } ∧
    is_operand [⟨"ADD", none, none, 2147483647, 0, 1⟩] ⟨"ADD", none, none, 2147483647, 0, 1⟩
      2147483647 ∧
    encoding "ADD" 2147483647 = [2147483747] ∧
    asm_gen_code_for_instruction
        { root := [⟨"ADD", none, none, 2147483647, 0, 1⟩], error := none, code := [0] }
        ⟨"ADD", none, none, 2147483647, 0, 1⟩ =
      some { root := [⟨"ADD", none, none, 2147483647, 0, 1⟩]
             error := none
             code := [-2147483549] } :=
  ⟨by decide, Or.inl ⟨rfl, rfl⟩, by decide, by decide⟩

/-! ## The parser on valid statements -/

theorem asm_is_instruction_iff (t : String) : asm_is_instruction t = true ↔ t ∈ INSTRUCTIONS := by
  unfold asm_is_instruction
  constructor
  · intro h
    obtain ⟨x, hx, hxt⟩ := List.any_eq_true.1 h
    rw [eq_of_beq hxt]
    exact hx
  · intro h
    exact List.any_eq_true.2 ⟨t, h, beq_self_eq_true t⟩

theorem asm_instruction_requires_arg_iff (t : String) :
    asm_instruction_requires_arg t = true ↔ t ∈ ARG_INSTRUCTIONS := by
  unfold asm_instruction_requires_arg
  constructor
  · intro h
    obtain ⟨x, hx, hxt⟩ := List.any_eq_true.1 h
    rw [eq_of_beq hxt]
    exact hx
  · intro h
    exact List.any_eq_true.2 ⟨t, h, beq_self_eq_true t⟩

/-- One iteration of the parser on the tokens of a valid statement. -/
theorem parse_statement (s : statement) (hs : s.valid) (fuel : Nat) (chain : List instruction)
    (error : Option String) (rest : List String) :
    asm_parse_loop (fuel + 1) chain error (s.tokens ++ rest) =
      asm_parse_loop fuel (chain ++ [s.node chain.getLast?]) (s.error error) rest := by
  obtain ⟨label, m, operand⟩ := s
  obtain ⟨hl, hm, ho⟩ := hs
  simp only at hl hm ho
  have hm' := (asm_is_instruction_iff m).2 hm
  cases operand with
  | none =>
    have ha : asm_instruction_requires_arg m = false := by
      rw [Bool.eq_false_iff]
      intro h
      exact absurd (ho.2 ((asm_instruction_requires_arg_iff m).1 h)) (by simp)
    cases label with
    | none =>
      simp [statement.tokens, asm_parse_loop, hm', ha, statement.node, statement.error]
    | some l =>
      have hl' : asm_is_instruction l = false := by
        rw [Bool.eq_false_iff]
        intro h
        exact hl l rfl ((asm_is_instruction_iff l).1 h)
      simp [statement.tokens, asm_parse_loop, hm', ha, hl', statement.node, statement.error]
  | some t =>
    have ha : asm_instruction_requires_arg m = true :=
      (asm_instruction_requires_arg_iff m).2 (ho.1 rfl)
    cases label with
    | none =>
      simp [statement.tokens, asm_parse_loop, hm', ha, statement.node, statement.error]
      generalize (if asm_is_num t = true then sscanf_d t 0 else 0) = v
      have he : (if (if 999 < v then 999 else v) < -999 then some ASM_ERROR_OUT_OF_RANGE
          else if 999 < v then some ASM_ERROR_OUT_OF_RANGE else error) =
          (if 999 < v ∨ v < -999 then some ASM_ERROR_OUT_OF_RANGE else error) := by
        split_ifs <;> first | rfl | omega
      rw [he]
    | some l =>
      have hl' : asm_is_instruction l = false := by
        rw [Bool.eq_false_iff]
        intro h
        exact hl l rfl ((asm_is_instruction_iff l).1 h)
      simp [statement.tokens, asm_parse_loop, hm', ha, hl', statement.node, statement.error]
      generalize (if asm_is_num t = true then sscanf_d t 0 else 0) = v
      have he : (if (if 999 < v then 999 else v) < -999 then some ASM_ERROR_OUT_OF_RANGE
          else if 999 < v then some ASM_ERROR_OUT_OF_RANGE else error) =
          (if 999 < v ∨ v < -999 then some ASM_ERROR_OUT_OF_RANGE else error) := by
        split_ifs <;> first | rfl | omega
      rw [he]

theorem parse_loop_nil (fuel : Nat) (chain : List instruction) (error : Option String) :
    asm_parse_loop fuel chain error [] = some (chain, error) := by
  cases fuel <;> rfl

/-- The iterations of the parser on the tokens of valid statements. -/
theorem parse_statements (ss : List statement) (hss : ∀ s ∈ ss, s.valid) (fuel : Nat)
    (chain : List instruction) (error : Option String) (rest : List String) :
    asm_parse_loop (ss.length + fuel) chain error (ss.flatMap statement.tokens ++ rest) =
      asm_parse_loop fuel (build chain ss) (build_error error ss) rest := by
  induction ss generalizing chain error with
  | nil => simp [build, build_error]
  | cons s ss ih =>
    have hs : s.valid := hss s (List.mem_cons_self _ _)
    have hss' : ∀ s ∈ ss, s.valid := fun x hx => hss x (List.mem_cons_of_mem _ hx)
    have hfuel : (s :: ss).length + fuel = (ss.length + fuel) + 1 := by simp; omega
    rw [hfuel, List.flatMap_cons, List.append_assoc, parse_statement s hs, ih hss']
    rfl

theorem statement_tokens_length (s : statement) : 1 ≤ s.tokens.length := by
  simp [statement.tokens]
  omega

theorem statements_tokens_length (ss : List statement) :
    ss.length ≤ (ss.flatMap statement.tokens).length := by
  induction ss with
  | nil => simp
  | cons s ss ih =>
    have := statement_tokens_length s
    simp only [List.flatMap_cons, List.length_append, List.length_cons]
    omega

/-- The parser on a fresh record, in terms of its loop. -/
theorem asm_parse_src_fresh (cap : Nat) (src : String) :
    asm_parse_src (asm_make_compilation_result cap) src =
      (asm_parse_loop (strtok_all src).length [] none (strtok_all src)).map
        fun p => { root := p.1, error := p.2, code := List.replicate cap 0 } := by
  simp only [asm_parse_src, asm_make_compilation_result]
  cases h : asm_parse_loop (strtok_all src).length [] none (strtok_all src) with
  | none => rfl
  | some p => simp

/-- The parser on a source made of valid statements only. -/
theorem asm_parse_src_valid (cap : Nat) (src : String) (ss : List statement)
    (hsrc : strtok_all src = ss.flatMap statement.tokens) (hss : ∀ s ∈ ss, s.valid) :
    asm_parse_src (asm_make_compilation_result cap) src =
      some { root := build [] ss, error := build_error none ss, code := List.replicate cap 0 } := by
  rw [asm_parse_src_fresh, hsrc]
  obtain ⟨k, hk⟩ := Nat.exists_eq_add_of_le (statements_tokens_length ss)
  have := parse_statements ss hss k [] none []
  rw [List.append_nil] at this
  rw [hk, this, parse_loop_nil]
  rfl

/-! ## The layout of the parsed list -/

theorem total_width_append (l₁ l₂ : List instruction) :
    total_width (l₁ ++ l₂) = total_width l₁ + total_width l₂ := by
  simp [total_width]

theorem total_width_cons (i : instruction) (l : List instruction) :
    total_width (i :: l) = width i.instruction + total_width l := by
  simp [total_width]

theorem laid_out_append (o : Int) (l₁ l₂ : List instruction) :
    laid_out o (l₁ ++ l₂) ↔ laid_out o l₁ ∧ laid_out (o + total_width l₁) l₂ := by
  induction l₁ generalizing o with
  | nil => simp [laid_out, total_width]
  | cons i l ih =>
    have e1 : laid_out o (i :: l ++ l₂) ↔
        (i.offset = o ∧ i.slots = width i.instruction ∧ i.instruction ∈ INSTRUCTIONS ∧
          laid_out (o + width i.instruction) (l ++ l₂)) := Iff.rfl
    have e2 : laid_out o (i :: l) ↔
        (i.offset = o ∧ i.slots = width i.instruction ∧ i.instruction ∈ INSTRUCTIONS ∧
          laid_out (o + width i.instruction) l) := Iff.rfl
    rw [e1, e2, ih, total_width_cons, Nat.cast_add, add_assoc]
    tauto

theorem laid_out_getLast (o : Int) (l : List instruction) (p : instruction)
    (hl : laid_out o l) (hp : l.getLast? = some p) :
    p.offset + p.slots = o + total_width l := by
  obtain ⟨l', rfl⟩ : ∃ l', l = l' ++ [p] := by
    rcases List.eq_nil_or_concat l with h | ⟨l', a, h⟩
    · simp [h] at hp
    · rw [h, List.concat_eq_append] at hp ⊢
      rw [List.getLast?_concat] at hp
      cases hp
      exact ⟨l', rfl⟩
  rw [laid_out_append] at hl
  obtain ⟨_, h1, h2, _, _⟩ := hl
  rw [total_width_append, h1, h2]
  simp [total_width]
  ring

theorem asm_make_instruction_slots (m : String) (lbl ref : Option String) (v : Int)
    (p : Option instruction) : (asm_make_instruction m lbl ref v p).slots = width m := by
  simp only [asm_make_instruction, width]
  split_ifs <;> simp_all

theorem asm_make_instruction_offset (m : String) (lbl ref : Option String) (v : Int)
    (l : List instruction) (hl : laid_out 0 l) :
    (asm_make_instruction m lbl ref v l.getLast?).offset = total_width l := by
  cases hp : l.getLast? with
  | none =>
    have : l = [] := by simpa using hp
    simp [asm_make_instruction, this, total_width]
  | some p =>
    have := laid_out_getLast 0 l p hl hp
    simp only [asm_make_instruction]
    rw [this]
    simp

/-- Appending the node made by `asm_make_instruction` keeps the layout. -/
theorem laid_out_make (m : String) (lbl ref : Option String) (v : Int)
    (l : List instruction) (hl : laid_out 0 l) (hm : m ∈ INSTRUCTIONS) :
    laid_out 0 (l ++ [asm_make_instruction m lbl ref v l.getLast?]) := by
  rw [laid_out_append]
  refine ⟨hl, ?_, ?_, hm, trivial⟩
  · rw [asm_make_instruction_offset m lbl ref v l hl]; simp
  · exact asm_make_instruction_slots m lbl ref v _

/-- The three outcomes of one iteration of the parser, whatever the fuel
left: the null pointer reaches `strcmp`; or the parser stops on
UnknownInstruction or ArgumentRequired with the list as it was; or it appends
one node with a recognized mnemonic, leaves the error slot as it was or sets
it to OutOfRange, and goes on with the tokens that remain. -/
theorem parse_loop_step (chain : List instruction) (error : Option String)
    (token : String) (rest : List String) :
    (∀ fuel, asm_parse_loop (fuel + 1) chain error (token :: rest) = none) ∨
    (∃ e, (e = ASM_ERROR_UNKNOWN_INSTRUCTION ∨ e = ASM_ERROR_ARG_REQUIRED) ∧
      ∀ fuel, asm_parse_loop (fuel + 1) chain error (token :: rest) = some (chain, some e)) ∨
    (∃ m lbl ref v e rest', m ∈ INSTRUCTIONS ∧ rest'.length ≤ rest.length ∧
      (e = error ∨ e = some ASM_ERROR_OUT_OF_RANGE) ∧
      ∀ fuel, asm_parse_loop (fuel + 1) chain error (token :: rest) =
        asm_parse_loop fuel (chain ++ [asm_make_instruction m lbl ref v chain.getLast?]) e
          rest') := by
  have herr : ∀ t : String, ((if (if (if asm_is_num t then sscanf_d t 0 else 0) > 999 then 999
              else if asm_is_num t then sscanf_d t 0 else 0) < -999
            then some ASM_ERROR_OUT_OF_RANGE
            else if (if asm_is_num t then sscanf_d t 0 else 0) > 999
              then some ASM_ERROR_OUT_OF_RANGE else error) = error) ∨
      ((if (if (if asm_is_num t then sscanf_d t 0 else 0) > 999 then 999
              else if asm_is_num t then sscanf_d t 0 else 0) < -999
            then some ASM_ERROR_OUT_OF_RANGE
            else if (if asm_is_num t then sscanf_d t 0 else 0) > 999
              then some ASM_ERROR_OUT_OF_RANGE else error) = some ASM_ERROR_OUT_OF_RANGE) := by
    intro t
    split_ifs <;> simp
  by_cases h1 : asm_is_instruction token = true
  · have hm := (asm_is_instruction_iff token).1 h1
    by_cases ha : asm_instruction_requires_arg token = true
    · cases rest with
      | nil =>
        exact Or.inr (Or.inl ⟨ASM_ERROR_ARG_REQUIRED, Or.inr rfl,
          fun fuel => by simp [asm_parse_loop, h1, ha]⟩)
      | cons t rest' =>
        refine Or.inr (Or.inr ⟨token, none, if asm_is_num t then none else some t,
          if asm_is_num t then sscanf_d t 0 else 0, (if (if (if asm_is_num t then sscanf_d t 0 else 0) > 999 then 999
              else if asm_is_num t then sscanf_d t 0 else 0) < -999
            then some ASM_ERROR_OUT_OF_RANGE
            else if (if asm_is_num t then sscanf_d t 0 else 0) > 999
              then some ASM_ERROR_OUT_OF_RANGE else error),
          rest', hm, by simp, herr t, fun fuel => ?_⟩)
        simp only [asm_parse_loop, h1, ha, Bool.not_true, Bool.false_eq_true, reduceIte]
    · refine Or.inr (Or.inr ⟨token, none, none, 0, error, rest, hm, le_rfl, Or.inl rfl,
        fun fuel => ?_⟩)
      simp only [asm_parse_loop, h1, ha, Bool.not_true, Bool.false_eq_true, reduceIte]
  · cases rest with
    | nil => exact Or.inl (fun fuel => by simp [asm_parse_loop, h1])
    | cons m rest1 =>
      by_cases h2 : asm_is_instruction m = true
      · have hm := (asm_is_instruction_iff m).1 h2
        by_cases ha : asm_instruction_requires_arg m = true
        · cases rest1 with
          | nil =>
            exact Or.inr (Or.inl ⟨ASM_ERROR_ARG_REQUIRED, Or.inr rfl,
              fun fuel => by simp [asm_parse_loop, h1, h2, ha]⟩)
          | cons t rest' =>
            refine Or.inr (Or.inr ⟨m, some token, if asm_is_num t then none else some t,
              if asm_is_num t then sscanf_d t 0 else 0, (if (if (if asm_is_num t then sscanf_d t 0 else 0) > 999 then 999
              else if asm_is_num t then sscanf_d t 0 else 0) < -999
            then some ASM_ERROR_OUT_OF_RANGE
            else if (if asm_is_num t then sscanf_d t 0 else 0) > 999
              then some ASM_ERROR_OUT_OF_RANGE else error),
              rest', hm, by simp; omega, herr t, fun fuel => ?_⟩)
            simp only [asm_parse_loop, h1, h2, ha, Bool.not_true, Bool.not_false,
              Bool.false_eq_true, reduceIte]
        · refine Or.inr (Or.inr ⟨m, some token, none, 0, error, rest1, hm, by simp, Or.inl rfl,
            fun fuel => ?_⟩)
          simp only [asm_parse_loop, h1, h2, ha, Bool.not_true, Bool.not_false,
            Bool.false_eq_true, reduceIte]
      · exact Or.inr (Or.inl ⟨ASM_ERROR_UNKNOWN_INSTRUCTION, Or.inl rfl,
          fun fuel => by simp [asm_parse_loop, h1, h2]⟩)

/-- The fuel given to the loop of the parser never runs out: with at least as
much fuel as there are tokens the outcome does not depend on the fuel. -/
theorem parse_loop_fuel (fuel₁ fuel₂ : Nat) (chain : List instruction)
    (error : Option String) (toks : List String)
    (h₁ : toks.length ≤ fuel₁) (h₂ : toks.length ≤ fuel₂) :
    asm_parse_loop fuel₁ chain error toks = asm_parse_loop fuel₂ chain error toks := by
  induction fuel₁ generalizing fuel₂ chain error toks with
  | zero =>
    have : toks = [] := List.length_eq_zero.1 (Nat.le_zero.1 h₁)
    subst this
    rw [parse_loop_nil, parse_loop_nil]
  | succ n ih =>
    cases toks with
    | nil => rw [parse_loop_nil, parse_loop_nil]
    | cons token rest =>
      obtain ⟨k, rfl⟩ : ∃ k, fuel₂ = k + 1 := ⟨fuel₂ - 1, by simp at h₂; omega⟩
      simp only [List.length_cons] at h₁ h₂
      rcases parse_loop_step chain error token rest with h | ⟨e, _, h⟩ |
        ⟨m, lbl, ref, v, e, rest', _, hlen, _, h⟩
      · rw [h n, h k]
      · rw [h n, h k]
      · rw [h n, h k]
        exact ih k _ _ _ (by omega) (by omega)

/-- The parser keeps the layout of the list it extends. -/
theorem parse_loop_laid_out (fuel : Nat) (chain : List instruction) (error : Option String)
    (toks : List String) (chain' : List instruction) (error' : Option String)
    (hl : laid_out 0 chain)
    (h : asm_parse_loop fuel chain error toks = some (chain', error')) :
    laid_out 0 chain' := by
  induction fuel generalizing chain error toks with
  | zero =>
    simp only [asm_parse_loop, Option.some.injEq, Prod.mk.injEq] at h
    rw [← h.1]; exact hl
  | succ n ih =>
    cases toks with
    | nil =>
      simp only [asm_parse_loop, Option.some.injEq, Prod.mk.injEq] at h
      rw [← h.1]; exact hl
    | cons token rest =>
      rcases parse_loop_step chain error token rest with h1 | ⟨e, _, h1⟩ |
        ⟨m, lbl, ref, v, e, rest', hm, _, _, h1⟩
      · rw [h1 n] at h; cases h
      · rw [h1 n] at h
        simp only [Option.some.injEq, Prod.mk.injEq] at h
        rw [← h.1]; exact hl
      · rw [h1 n] at h
        exact ih _ _ _ (laid_out_make m lbl ref v chain hl hm) h

/-- The list of a parsed record is laid out from address 0. -/
theorem asm_parse_src_laid_out (cap : Nat) (src : String) (r : compilation_result)
    (h : asm_parse_src (asm_make_compilation_result cap) src = some r) :
    laid_out 0 r.root ∧ r.code = List.replicate cap 0 := by
  rw [asm_parse_src_fresh] at h
  cases hp : asm_parse_loop (strtok_all src).length [] none (strtok_all src) with
  | none => rw [hp] at h; cases h
  | some p =>
    rw [hp] at h
    simp only [Option.map_some', Option.some.injEq] at h
    subst h
    exact ⟨parse_loop_laid_out _ [] _ _ p.1 p.2 (by trivial) hp, rfl⟩


/-! ## The layout of the output array -/

theorem write_words_length (code : List Int) (n : Nat) (ws : List Int)
    (h : n + ws.length ≤ code.length) : (write_words code n ws).length = code.length := by
  simp only [write_words, List.length_append, List.length_take, List.length_drop]
  omega

theorem write_words_append (code : List Int) (n : Nat) (ws₁ ws₂ : List Int)
    (h : n + ws₁.length ≤ code.length) :
    write_words (write_words code n ws₁) (n + ws₁.length) ws₂ =
      write_words code n (ws₁ ++ ws₂) := by
  have hA : (code.take n ++ ws₁).length = n + ws₁.length := by
    simp only [List.length_append, List.length_take]
    omega
  have h1 : (write_words code n ws₁).take (n + ws₁.length) = code.take n ++ ws₁ := by
    simp only [write_words]
    exact List.take_left' hA
  have h2 : (write_words code n ws₁).drop (n + ws₁.length + ws₂.length) =
      code.drop (n + (ws₁ ++ ws₂).length) := by
    simp only [write_words]
    rw [← hA, List.drop_append, List.drop_drop, hA, List.length_append]
    congr 1
    omega
  rw [write_words, h1, h2, write_words]
  simp

theorem write_words_replicate (cap : Nat) (ws : List Int) (h : ws.length ≤ cap) :
    write_words (List.replicate cap 0) 0 ws = ws ++ List.replicate (cap - ws.length) 0 := by
  simp [write_words, List.drop_replicate]

theorem encoded_length (root l : List instruction) (o : Int) (hl : laid_out o l) :
    (encoded root l).length = total_width l := by
  induction l generalizing o with
  | nil => rfl
  | cons i l ih =>
    obtain ⟨_, _, hm, hl'⟩ := hl
    simp only [encoded, List.flatMap_cons, List.length_append, total_width_cons] at ih ⊢
    rw [stored_words_length _ _ hm, ih _ hl']

/-- The loop of `asm_gen_code` over a laid-out list that fits in the array:
the words of the instructions, in list order, from the address of the
first. -/
theorem gen_loop_laid_out (result : compilation_result) (l : List instruction) (o : Int)
    (h0 : 0 ≤ o) (hl : laid_out o l) (hfit : o + total_width l ≤ result.code.length) :
    asm_gen_code_loop result l =
      some { root := result.root
             error := gen_loop_error result.root result.error l
             code := write_words result.code o.toNat (encoded result.root l) } := by
  induction l generalizing result o with
  | nil => simp [asm_gen_code_loop, gen_loop_error, encoded, write_words_nil]
  | cons i l ih =>
    obtain ⟨ho, _, hm, hl'⟩ := hl
    rw [total_width_cons] at hfit
    have hfit1 : i.offset + width i.instruction ≤ result.code.length := by
      rw [ho]; push_cast at hfit; omega
    have hot : o.toNat + (stored_words i.instruction (gen_operand result.root i)).length ≤
        result.code.length := by
      rw [stored_words_length _ _ hm]; push_cast at hfit; omega
    simp only [asm_gen_code_loop]
    rw [gen_recognized result i hm (by omega) hfit1, Option.some_bind]
    rw [ih _ (o + width i.instruction) (by omega) hl'
      (by simp only [write_words_length _ _ _ (ho ▸ hot)]; push_cast at hfit ⊢; omega)]
    simp only [gen_loop_error, encoded, List.flatMap_cons]
    rw [ho]
    have : (o + (width i.instruction : Int)).toNat =
        o.toNat + (stored_words i.instruction (gen_operand result.root i)).length := by
      rw [stored_words_length _ _ hm]; omega
    rw [this, write_words_append _ _ _ _ hot]

/-- The layout of the output of `asm_assemble`: for a source that the parser
turns into the record `r`, whose instructions fit in the array, the output
array holds the words of the instructions of `r.root` in list order, followed
by zeros. -/
theorem asm_assemble_layout (cap : Nat) (src : String) (r : compilation_result)
    (h : asm_parse_src (asm_make_compilation_result cap) src = some r)
    (hfit : total_width r.root ≤ cap) :
    asm_assemble cap src =
      some { root := r.root
             error := gen_loop_error r.root r.error r.root
             code := encoded r.root r.root ++
               List.replicate (cap - total_width r.root) 0 } := by
  obtain ⟨hl, hc⟩ := asm_parse_src_laid_out cap src r h
  have hlen := encoded_length r.root r.root 0 hl
  rw [asm_assemble, h, Option.some_bind, asm_gen_code,
    gen_loop_laid_out r r.root 0 le_rfl hl (by simp [hc]; exact hfit), hc]
  simp only [Int.toNat_zero]
  rw [write_words_replicate _ _ (by omega), hlen]

/-! ## The list built from valid statements -/

theorem build_length (chain : List instruction) (ss : List statement) :
    (build chain ss).length = chain.length + ss.length := by
  induction ss generalizing chain with
  | nil => rfl
  | cons s ss ih => simp [build, ih]; omega

theorem build_map_instruction (chain : List instruction) (ss : List statement) :
    (build chain ss).map (fun i => i.instruction) =
      chain.map (fun i => i.instruction) ++ ss.map (fun s => s.mnemonic) := by
  induction ss generalizing chain with
  | nil => simp [build]
  | cons s ss ih => simp [build, ih, statement.node, asm_make_instruction]

theorem build_map_label (chain : List instruction) (ss : List statement) :
    (build chain ss).map (fun i => i.label) =
      chain.map (fun i => i.label) ++ ss.map (fun s => s.label) := by
  induction ss generalizing chain with
  | nil => simp [build]
  | cons s ss ih => simp [build, ih, statement.node, asm_make_instruction]

theorem laid_out_offset (o : Int) (l pre post : List instruction) (i : instruction)
    (hl : laid_out o l) (h : l = pre ++ i :: post) : i.offset = o + total_width pre := by
  subst h
  rw [laid_out_append] at hl
  exact hl.2.1

/-- C4: label resolution scans the whole list and takes the first match: for
every list and every name `L`, `asm_find_label` returns the offset of the
first instruction, in list order, whose label is `L`, whatever follows it
(later nodes with the same label included) and wherever the referencing
instruction stands; so `X BRA Y / Y HLT` and `Y BRA X / X HLT` both assemble
to the code 601, 0 (then zeros) with no error recorded. -/
theorem asm_find_label_takes_first_match :
    (∀ (pre : List instruction) (j : instruction) (post : List instruction) (L : String),
      (∀ i ∈ pre, i.label ≠ some L) → j.label = some L →
        asm_find_label (pre ++ j :: post) L = j.offset) ∧
    (∀ cap : Nat, 2 ≤ cap →
      ∃ r, asm_assemble cap "X BRA Y \n Y HLT" = some r ∧
        r.code = [601, 0] ++ List.replicate (cap - 2) 0 ∧ r.error = none) ∧
    (∀ cap : Nat, 2 ≤ cap →
      ∃ r, asm_assemble cap "Y BRA X \n X HLT" = some r ∧
        r.code = [601, 0] ++ List.replicate (cap - 2) 0 ∧ r.error = none) := by
  refine ⟨asm_find_label_first, ?_, ?_⟩
  · intro cap hcap
    have hp : asm_parse_src (asm_make_compilation_result cap) "X BRA Y \n Y HLT" =
        some { root := [⟨"BRA", some "X", some "Y", 0, 0, 1⟩, ⟨"HLT", some "Y", none, 0, 1, 1⟩]
               error := none
               code := List.replicate cap 0 } := by
      rw [asm_parse_src_fresh]; rfl
    exact ⟨_, asm_assemble_layout cap _ _ hp hcap, rfl, rfl⟩
  · intro cap hcap
    have hp : asm_parse_src (asm_make_compilation_result cap) "Y BRA X \n X HLT" =
        some { root := [⟨"BRA", some "Y", some "X", 0, 0, 1⟩, ⟨"HLT", some "X", none, 0, 1, 1⟩]
               error := none
               code := List.replicate cap 0 } := by
      rw [asm_parse_src_fresh]; rfl
    exact ⟨_, asm_assemble_layout cap _ _ hp hcap, rfl, rfl⟩

/-- A witness for C4: the label `L` carried by the second and by the third
node resolves to the offset of the second, and the two sources assemble in an
array of four words. -/
theorem asm_find_label_takes_first_match_witness :
    asm_find_label
      ([⟨"HLT", none, none, 0, 0, 1⟩] ++ ⟨"DAT", some "L", none, 5, 1, 1⟩ ::
        [⟨"DAT", some "L", none, 6, 2, 1⟩]) "L" = 1 ∧
    (∃ r, asm_assemble 4 "X BRA Y \n Y HLT" = some r ∧
      r.code = [601, 0] ++ List.replicate (4 - 2) 0 ∧ r.error = none) ∧
    (∃ r, asm_assemble 4 "Y BRA X \n X HLT" = some r ∧
      r.code = [601, 0] ++ List.replicate (4 - 2) 0 ∧ r.error = none) :=
  ⟨asm_find_label_takes_first_match.1 [⟨"HLT", none, none, 0, 0, 1⟩]
      ⟨"DAT", some "L", none, 5, 1, 1⟩ [⟨"DAT", some "L", none, 6, 2, 1⟩] "L"
      (by decide) rfl,
    asm_find_label_takes_first_match.2.1 4 (by decide),
    asm_find_label_takes_first_match.2.2 4 (by decide)⟩

/-! ## Unresolved label references -/

/-- C7: for an instruction with a recognized mnemonic whose `label_reference`
is the label of no instruction of the list, and whose words lie inside the
output array, `asm_gen_code_for_instruction` records the error BadLabel and
still stores the words of the instruction at its offset, computed with the
operand -1 of the failed lookup; the loop of `asm_gen_code` then goes on with
the instructions that follow.  So `BRA nowhere` assembles to the error
BadLabel with `code[0] = 599`. -/
theorem asm_gen_code_for_instruction_bad_label :
    (∀ (result : compilation_result) (ins : instruction) (L : String),
      ins.instruction ∈ INSTRUCTIONS → ins.label_reference = some L →
      (∀ i ∈ result.root, i.label ≠ some L) → 0 ≤ ins.offset →
      ins.offset + width ins.instruction ≤ result.code.length →
      ∃ row ∈ encoding_table, row.1 = ins.instruction ∧
        asm_gen_code_for_instruction result ins =
          some { root := result.root
                 error := some ASM_ERROR_BAD_LABEL
                 code := result.code.take ins.offset.toNat ++ row.2 (-1) ++
                   result.code.drop (ins.offset.toNat + (row.2 (-1)).length) } ∧
        ∀ next, asm_gen_code_loop result (ins :: next) =
          asm_gen_code_loop
            { root := result.root
              error := some ASM_ERROR_BAD_LABEL
              code := result.code.take ins.offset.toNat ++ row.2 (-1) ++
                result.code.drop (ins.offset.toNat + (row.2 (-1)).length) } next) ∧
    (∀ cap : Nat, 1 ≤ cap →
      ∃ r, asm_assemble cap "BRA nowhere" = some r ∧
        r.error = some ASM_ERROR_BAD_LABEL ∧
        r.code = [599] ++ List.replicate (cap - 1) 0) := by
  constructor
  · intro result ins L hm hl hno h0 hfit
    obtain ⟨row, hrow, hname, hwords⟩ := encoding_row ins.instruction hm
    have hfind := asm_find_label_absent result.root L hno
    have hgen : asm_gen_code_for_instruction result ins =
        some { root := result.root
               error := some ASM_ERROR_BAD_LABEL
               code := result.code.take ins.offset.toNat ++ row.2 (-1) ++
                 result.code.drop (ins.offset.toNat + (row.2 (-1)).length) } := by
      have hop : gen_operand result.root ins = -1 := by simp [gen_operand, hl, hfind]
      rw [gen_recognized result ins hm h0 hfit, hwords, hop,
        stored_words_eq_encoding_of_bounds _ (-1) (by decide) (by decide)]
      simp [gen_error, hl, hfind, write_words]
    refine ⟨row, hrow, hname, hgen, ?_⟩
    intro next
    simp only [asm_gen_code_loop, hgen, Option.some_bind]
  · intro cap hcap
    have hp : asm_parse_src (asm_make_compilation_result cap) "BRA nowhere" =
        some { root := [⟨"BRA", none, some "nowhere", 0, 0, 1⟩]
               error := none
               code := List.replicate cap 0 } := by
      rw [asm_parse_src_fresh]; rfl
    exact ⟨_, asm_assemble_layout cap _ _ hp hcap, rfl, rfl⟩

/-- A witness for C7: `BRA nowhere` at offset 1 of a three-word array, and
the source `BRA nowhere` assembled in an array of three words. -/
theorem asm_gen_code_for_instruction_bad_label_witness :
    (∃ row ∈ encoding_table, row.1 = "BRA" ∧
      asm_gen_code_for_instruction
          { root := [⟨"HLT", some "here", none, 0, 0, 1⟩,
              ⟨"BRA", none, some "nowhere", 0, 1, 1⟩]
            error := none
            code := [0, 0, 0] }
          ⟨"BRA", none, some "nowhere", 0, 1, 1⟩ =
        some { root := [⟨"HLT", some "here", none, 0, 0, 1⟩,
                 ⟨"BRA", none, some "nowhere", 0, 1, 1⟩]
               error := some ASM_ERROR_BAD_LABEL
               code := [0] ++ row.2 (-1) ++ List.drop (1 + (row.2 (-1)).length) [0, 0, 0] } ∧
      ∀ next, asm_gen_code_loop
          { root := [⟨"HLT", some "here", none, 0, 0, 1⟩,
              ⟨"BRA", none, some "nowhere", 0, 1, 1⟩]
            error := none
            code := [0, 0, 0] }
          (⟨"BRA", none, some "nowhere", 0, 1, 1⟩ :: next) =
        asm_gen_code_loop
          { root := [⟨"HLT", some "here", none, 0, 0, 1⟩,
              ⟨"BRA", none, some "nowhere", 0, 1, 1⟩]
            error := some ASM_ERROR_BAD_LABEL
            code := [0] ++ row.2 (-1) ++ List.drop (1 + (row.2 (-1)).length) [0, 0, 0] }
          next) ∧
    (∃ r, asm_assemble 3 "BRA nowhere" = some r ∧
      r.error = some ASM_ERROR_BAD_LABEL ∧
      r.code = [599] ++ List.replicate (3 - 1) 0) :=
  ⟨asm_gen_code_for_instruction_bad_label.1
      { root := [⟨"HLT", some "here", none, 0, 0, 1⟩, ⟨"BRA", none, some "nowhere", 0, 1, 1⟩]
        error := none
        code := [0, 0, 0] }
      ⟨"BRA", none, some "nowhere", 0, 1, 1⟩ "nowhere"
      (by decide) rfl (by decide) (by decide) (by decide),
    asm_gen_code_for_instruction_bad_label.2 3 (by decide)⟩

/-! ## Numeric literals -/

theorem digits_value_eq_foldl (ds : List Char) (acc : Nat) :
    digits_value ds acc = ds.foldl (fun acc c => 10 * acc + (c.toNat - '0'.toNat)) acc := by
  induction ds generalizing acc with
  | nil => rfl
  | cons c cs ih => simp [digits_value, ih]

theorem digits_value_eq_decimal (ds : List Char) : digits_value ds 0 = decimal ds :=
  digits_value_eq_foldl ds 0

theorem asm_is_num_loop_of_digits (ds : List Char) (h : ∀ c ∈ ds, '0' ≤ c ∧ c ≤ '9') :
    asm_is_num_loop ds = true := by
  induction ds with
  | nil => rfl
  | cons c cs ih =>
    have hc := h c (List.mem_cons_self _ _)
    have hcs : ∀ c ∈ cs, '0' ≤ c ∧ c ≤ '9' := fun x hx => h x (List.mem_cons_of_mem _ hx)
    have : ¬ (c < '0' ∨ '9' < c) := by
      rintro (h1 | h1)
      · exact absurd hc.1 (not_le.2 h1)
      · exact absurd hc.2 (not_le.2 h1)
    simp [asm_is_num_loop, this, ih hcs]

/-- On a decimal literal `asm_is_num` answers 1 and `sscanf` stores the value
of the literal, as `sscanf` stores it in an `int`. -/
theorem scan_literal (t : String) (n : Int) (h : literal_value t = some n) :
    asm_is_num t = true ∧ sscanf_d t 0 = int_of_scan n := by
  unfold literal_value at h
  unfold asm_is_num sscanf_d
  split at h
  · rename_i ds heq
    split_ifs at h with hd
    simp only [Option.some.injEq] at h
    subst h
    simp [heq, asm_is_num_loop_of_digits ds hd.2, hd.1, digits_value_eq_decimal]
  · rename_i ds hne
    split_ifs at h with hd
    simp only [Option.some.injEq] at h
    subst h
    exact ⟨asm_is_num_loop_of_digits _ hd.2, by rw [if_neg hd.1, digits_value_eq_decimal]⟩

theorem int_of_scan_id (n : Int) (h1 : -2147483648 ≤ n) (h2 : n ≤ 2147483647) :
    int_of_scan n = n := by
  unfold int_of_scan long_of_scan
  rw [if_neg (by omega), if_neg (by omega)]
  exact int_trunc_id n h1 h2

/-- Literals that do not fit an `int`.  `4294967296` fits a `long`, whose low
32 bits are 0; `99999999999999999999` does not fit a `long`, the conversion
yields `LONG_MAX` and the `int` is -1; its negative yields `LONG_MIN` and the
`int` is 0.  None of the three is recorded as OutOfRange. -/
theorem asm_parse_src_literal_beyond_int :
    asm_parse_src (asm_make_compilation_result 1) "DAT 4294967296" =
      some { root := [⟨"DAT", none, none, 0, 0, 1⟩], error := none, code := [0] } ∧
    asm_parse_src (asm_make_compilation_result 1) "DAT 99999999999999999999" =
      some { root := [⟨"DAT", none, none, -1, 0, 1⟩], error := none, code := [0] } ∧
    asm_parse_src (asm_make_compilation_result 1) "DAT -99999999999999999999" =
      some { root := [⟨"DAT", none, none, 0, 0, 1⟩], error := none, code := [0] } := by
  refine ⟨by decide, by decide, by decide⟩

/-! ## The error slot of the parser -/

theorem statement_error_cases (s : statement) (error : Option String) :
    s.error error = some ASM_ERROR_OUT_OF_RANGE ∨ s.error error = error := by
  unfold statement.error
  cases s.operand with
  | none => exact Or.inr rfl
  | some t =>
    simp only
    split_ifs <;> first | exact Or.inl rfl | exact Or.inr rfl

theorem build_error_out_of_range (ss : List statement) :
    build_error (some ASM_ERROR_OUT_OF_RANGE) ss = some ASM_ERROR_OUT_OF_RANGE := by
  induction ss with
  | nil => rfl
  | cons s ss ih =>
    rcases statement_error_cases s (some ASM_ERROR_OUT_OF_RANGE) with h | h <;>
      simp only [build_error, h, ih]

theorem statement_error_of_literal (s : statement) (error : Option String) (t : String)
    (n : Int) (ht : s.operand = some t) (hn : literal_value t = some n)
    (hout : n < -999 ∨ 999 < n) (h1 : -2147483648 ≤ n) (h2 : n ≤ 2147483647) :
    s.error error = some ASM_ERROR_OUT_OF_RANGE := by
  obtain ⟨hnum, hval⟩ := scan_literal t n hn
  rw [int_of_scan_id n h1 h2] at hval
  unfold statement.error
  simp only [ht, hnum, hval, reduceIte]
  rw [if_pos (by omega)]

theorem build_error_of_literal (ss : List statement) (error : Option String)
    (h : ∃ s ∈ ss, ∃ t n, s.operand = some t ∧ literal_value t = some n ∧
      (n < -999 ∨ 999 < n) ∧ -2147483648 ≤ n ∧ n ≤ 2147483647) :
    build_error error ss = some ASM_ERROR_OUT_OF_RANGE := by
  induction ss generalizing error with
  | nil => obtain ⟨s, hs, _⟩ := h; cases hs
  | cons a ss ih =>
    obtain ⟨s, hs, t, n, ht, hn, hout, h1, h2⟩ := h
    rcases List.mem_cons.1 hs with rfl | hs
    · simp only [build_error, statement_error_of_literal s error t n ht hn hout h1 h2,
        build_error_out_of_range]
    · exact ih _ ⟨s, hs, t, n, ht, hn, hout, h1, h2⟩

/-- C6, amended: OutOfRange does not stop the parser.  For every source made
of valid statements only, one of whose operands is a decimal literal outside
-999..999 that fits a 32-bit `int`, `asm_parse_src` records the error
OutOfRange and still appends one instruction for every statement of the
source, those after the literal included, in order. -/
theorem asm_parse_src_out_of_range_goes_on (cap : Nat) (src : String) (ss : List statement)
    (hsrc : strtok_all src = ss.flatMap statement.tokens) (hss : ∀ s ∈ ss, s.valid)
    (hlit : ∃ s ∈ ss, ∃ t n, s.operand = some t ∧ literal_value t = some n ∧
      (n < -999 ∨ 999 < n) ∧ -2147483648 ≤ n ∧ n ≤ 2147483647) :
    ∃ r, asm_parse_src (asm_make_compilation_result cap) src = some r ∧
      r.error = some ASM_ERROR_OUT_OF_RANGE ∧
      r.root.length = ss.length ∧
      r.root.map (fun i => i.instruction) = ss.map (fun s => s.mnemonic) ∧
      r.root.map (fun i => i.label) = ss.map (fun s => s.label) := by
  refine ⟨_, asm_parse_src_valid cap src ss hsrc hss, ?_, ?_, ?_, ?_⟩
  · exact build_error_of_literal ss none hlit
  · simp [build_length]
  · simp [build_map_instruction]
  · simp [build_map_label]

/-- A witness for C6: `DAT 1000 HLT` yields the two-instruction list DAT, HLT
with the error OutOfRange. -/
theorem asm_parse_src_out_of_range_goes_on_witness :
    ∃ r, asm_parse_src (asm_make_compilation_result 4) "DAT 1000 HLT" = some r ∧
      r.error = some ASM_ERROR_OUT_OF_RANGE ∧
      r.root.length = [statement.mk none "DAT" (some "1000"), ⟨none, "HLT", none⟩].length ∧
      r.root.map (fun i => i.instruction) =
        [statement.mk none "DAT" (some "1000"), ⟨none, "HLT", none⟩].map (fun s => s.mnemonic) ∧
      r.root.map (fun i => i.label) =
        [statement.mk none "DAT" (some "1000"), ⟨none, "HLT", none⟩].map (fun s => s.label) :=
  asm_parse_src_out_of_range_goes_on 4 "DAT 1000 HLT"
    [⟨none, "DAT", some "1000"⟩, ⟨none, "HLT", none⟩] (by decide) (by decide)
    ⟨⟨none, "DAT", some "1000"⟩, by decide, "1000", 1000, rfl, by decide, by decide, by decide,
      by decide⟩

/-- C6 as stated fails: `DAT 4294967296 HLT` is made of valid statements, its
literal 4294967296 lies outside -999..999, and the parser records no
error: the literal does not fit an `int` and the value stored is 0. -/
theorem asm_parse_src_out_of_range_missed :
    strtok_all "DAT 4294967296 HLT" =
      [statement.mk none "DAT" (some "4294967296"), ⟨none, "HLT", none⟩].flatMap
        statement.tokens ∧
    (∀ s ∈ [statement.mk none "DAT" (some "4294967296"), ⟨none, "HLT", none⟩], s.valid) ∧
    literal_value "4294967296" = some 4294967296 ∧
    asm_parse_src (asm_make_compilation_result 4) "DAT 4294967296 HLT" =
      some { root := [⟨"DAT", none, none, 0, 0, 1⟩, ⟨"HLT", none, none, 0, 1, 1⟩]
             error := none
             code := [0, 0, 0, 0] } := by
  refine ⟨by decide, by decide, by decide, by decide⟩

/-! ## Terminal errors of the parser -/

theorem ARG_INSTRUCTIONS_subset (m : String) (h : m ∈ ARG_INSTRUCTIONS) : m ∈ INSTRUCTIONS := by
  simp only [ARG_INSTRUCTIONS, List.mem_cons, List.mem_singleton, List.not_mem_nil,
    or_false] at h
  rw [mem_INSTRUCTIONS_iff]
  tauto

/-- The parser on valid statements followed by further tokens: the loop
reaches the further tokens with the list of the statements built. -/
theorem asm_parse_src_valid_then (cap : Nat) (src : String) (ss : List statement)
    (tail : List String) (hsrc : strtok_all src = ss.flatMap statement.tokens ++ tail)
    (hss : ∀ s ∈ ss, s.valid) :
    ∃ fuel, tail.length ≤ fuel ∧
      asm_parse_src (asm_make_compilation_result cap) src =
        (asm_parse_loop fuel (build [] ss) (build_error none ss) tail).map
          fun p => { root := p.1, error := p.2, code := List.replicate cap 0 } := by
  obtain ⟨k, hk⟩ := Nat.exists_eq_add_of_le (statements_tokens_length ss)
  refine ⟨k + tail.length, by omega, ?_⟩
  rw [asm_parse_src_fresh, hsrc, List.length_append, hk, Nat.add_assoc,
    parse_statements ss hss]

/-- C8: UnknownInstruction stops the parser and keeps the list built so far.
For every source made of a sequence `P` of valid statements followed by two
consecutive tokens that are both not recognized mnemonics (and then by
anything), `asm_parse_src` records UnknownInstruction and leaves in the
result exactly the list that it builds for `P` alone: one instruction per
statement of `P`, none for what follows. -/
theorem asm_parse_src_unknown_instruction_keeps_list (cap : Nat) (src srcP : String)
    (P : List statement) (t₁ t₂ : String) (rest : List String)
    (hsrc : strtok_all src = P.flatMap statement.tokens ++ t₁ :: t₂ :: rest)
    (hsrcP : strtok_all srcP = P.flatMap statement.tokens)
    (hP : ∀ s ∈ P, s.valid) (h₁ : t₁ ∉ INSTRUCTIONS) (h₂ : t₂ ∉ INSTRUCTIONS) :
    ∃ r rP, asm_parse_src (asm_make_compilation_result cap) src = some r ∧
      asm_parse_src (asm_make_compilation_result cap) srcP = some rP ∧
      r.error = some ASM_ERROR_UNKNOWN_INSTRUCTION ∧
      r.root = rP.root ∧ r.root.length = P.length ∧ r.code = rP.code := by
  obtain ⟨fuel, hfuel, hparse⟩ := asm_parse_src_valid_then cap src P _ hsrc hP
  obtain ⟨k, rfl⟩ : ∃ k, fuel = k + 1 := ⟨fuel - 1, by simp at hfuel; omega⟩
  have e₁ : asm_is_instruction t₁ = false := by
    rw [Bool.eq_false_iff]; exact fun h => h₁ ((asm_is_instruction_iff t₁).1 h)
  have e₂ : asm_is_instruction t₂ = false := by
    rw [Bool.eq_false_iff]; exact fun h => h₂ ((asm_is_instruction_iff t₂).1 h)
  have hstep : asm_parse_loop (k + 1) (build [] P) (build_error none P) (t₁ :: t₂ :: rest) =
      some (build [] P, some ASM_ERROR_UNKNOWN_INSTRUCTION) := by
    simp [asm_parse_loop, e₁, e₂]
  rw [hstep] at hparse
  refine ⟨_, _, hparse, asm_parse_src_valid cap srcP P hsrcP hP, rfl, rfl, ?_, rfl⟩
  simp [build_length]

/-- A witness for C8: the statements `X DAT 5` and `HLT` followed by the tokens
`FOO BAR HLT`. -/
theorem asm_parse_src_unknown_instruction_keeps_list_witness :
    ∃ r rP, asm_parse_src (asm_make_compilation_result 4) "X DAT 5 \n HLT FOO BAR HLT" = some r ∧
      asm_parse_src (asm_make_compilation_result 4) "X DAT 5 \n HLT" = some rP ∧
      r.error = some ASM_ERROR_UNKNOWN_INSTRUCTION ∧
      r.root = rP.root ∧
      r.root.length = [statement.mk (some "X") "DAT" (some "5"), ⟨none, "HLT", none⟩].length ∧
      r.code = rP.code :=
  asm_parse_src_unknown_instruction_keeps_list 4 "X DAT 5 \n HLT FOO BAR HLT" "X DAT 5 \n HLT"
    [⟨some "X", "DAT", some "5"⟩, ⟨none, "HLT", none⟩] "FOO" "BAR" ["HLT"]
    (by decide) (by decide) (by decide) (by decide) (by decide)

/-- C10: a missing operand stops the parser.  For every source made of a
sequence `P` of valid statements followed by an optional label and, as the
final token, one of the 11 operand-requiring mnemonics, `asm_parse_src`
records ArgumentRequired, appends no instruction for that mnemonic and keeps
exactly the list that it builds for `P` alone; `ADD` alone assembles to the
error ArgumentRequired with an empty list. -/
theorem asm_parse_src_argument_required (cap : Nat) :
    (∀ (src srcP : String) (P : List statement) (label : Option String) (m : String),
      strtok_all src = P.flatMap statement.tokens ++ (label.toList ++ [m]) →
      strtok_all srcP = P.flatMap statement.tokens →
      (∀ s ∈ P, s.valid) → (∀ l ∈ label, l ∉ INSTRUCTIONS) → m ∈ ARG_INSTRUCTIONS →
      ∃ r rP, asm_parse_src (asm_make_compilation_result cap) src = some r ∧
        asm_parse_src (asm_make_compilation_result cap) srcP = some rP ∧
        r.error = some ASM_ERROR_ARG_REQUIRED ∧
        r.root = rP.root ∧ r.root.length = P.length ∧ r.code = rP.code) ∧
    asm_assemble cap "ADD" =
      some { root := [], error := some ASM_ERROR_ARG_REQUIRED, code := List.replicate cap 0 } := by
  constructor
  · intro src srcP P label m hsrc hsrcP hP hlabel hm
    obtain ⟨fuel, hfuel, hparse⟩ := asm_parse_src_valid_then cap src P _ hsrc hP
    obtain ⟨k, rfl⟩ : ∃ k, fuel = k + 1 := ⟨fuel - 1, by simp at hfuel; omega⟩
    have e₁ : asm_is_instruction m = true :=
      (asm_is_instruction_iff m).2 (ARG_INSTRUCTIONS_subset m hm)
    have e₂ : asm_instruction_requires_arg m = true :=
      (asm_instruction_requires_arg_iff m).2 hm
    have hstep : asm_parse_loop (k + 1) (build [] P) (build_error none P)
        (label.toList ++ [m]) = some (build [] P, some ASM_ERROR_ARG_REQUIRED) := by
      cases label with
      | none => simp [asm_parse_loop, e₁, e₂]
      | some l =>
        have e₃ : asm_is_instruction l = false := by
          rw [Bool.eq_false_iff]
          exact fun h => hlabel l rfl ((asm_is_instruction_iff l).1 h)
        simp [asm_parse_loop, e₁, e₂, e₃]
    rw [hstep] at hparse
    refine ⟨_, _, hparse, asm_parse_src_valid cap srcP P hsrcP hP, rfl, rfl, ?_, rfl⟩
    simp [build_length]
  · have hp : asm_parse_src (asm_make_compilation_result cap) "ADD" =
        some { root := [], error := some ASM_ERROR_ARG_REQUIRED, code := List.replicate cap 0 } := by
      rw [asm_parse_src_fresh]; rfl
    rw [asm_assemble, hp]
    rfl

/-- A witness for C10: the statements `DAT 1` and `HLT` followed by the label
`L` and a final `BRA`. -/
theorem asm_parse_src_argument_required_witness :
    (∃ r rP, asm_parse_src (asm_make_compilation_result 4) "DAT 1 HLT L BRA" = some r ∧
      asm_parse_src (asm_make_compilation_result 4) "DAT 1 HLT" = some rP ∧
      r.error = some ASM_ERROR_ARG_REQUIRED ∧
      r.root = rP.root ∧
      r.root.length = [statement.mk none "DAT" (some "1"), ⟨none, "HLT", none⟩].length ∧
      r.code = rP.code) ∧
    asm_assemble 4 "ADD" =
      some { root := [], error := some ASM_ERROR_ARG_REQUIRED, code := List.replicate 4 0 } :=
  ⟨(asm_parse_src_argument_required 4).1 "DAT 1 HLT L BRA" "DAT 1 HLT"
      [⟨none, "DAT", some "1"⟩, ⟨none, "HLT", none⟩] (some "L") "BRA"
      (by decide) (by decide) (by decide) (by decide) (by decide),
    (asm_parse_src_argument_required 4).2⟩

/-! ## Every token sequence: valid statements, then one of four endings -/

/-- The head of a token sequence: a lone token that is not a mnemonic, two
tokens that are not mnemonics, an operand-requiring mnemonic (with its label
or without) at the very end, or a valid statement. -/
theorem tokens_head (token : String) (rest : List String) :
    (token ∉ INSTRUCTIONS ∧ rest = []) ∨
    (∃ t₂ rest', token ∉ INSTRUCTIONS ∧ t₂ ∉ INSTRUCTIONS ∧ rest = t₂ :: rest') ∨
    (∃ (label : Option String) (m : String), (∀ l ∈ label, l ∉ INSTRUCTIONS) ∧
      m ∈ ARG_INSTRUCTIONS ∧ token :: rest = label.toList ++ [m]) ∨
    (∃ (s : statement) (rest' : List String), s.valid ∧ token :: rest = s.tokens ++ rest') := by
  by_cases h1 : token ∈ INSTRUCTIONS
  · by_cases ha : token ∈ ARG_INSTRUCTIONS
    · cases rest with
      | nil => exact Or.inr (Or.inr (Or.inl ⟨none, token, by simp, ha, rfl⟩))
      | cons t rest' =>
        exact Or.inr (Or.inr (Or.inr ⟨⟨none, token, some t⟩, rest',
          ⟨by simp, h1, by simp [ha]⟩, rfl⟩))
    · exact Or.inr (Or.inr (Or.inr ⟨⟨none, token, none⟩, rest,
        ⟨by simp, h1, by simp [ha]⟩, rfl⟩))
  · cases rest with
    | nil => exact Or.inl ⟨h1, rfl⟩
    | cons m rest1 =>
      by_cases h2 : m ∈ INSTRUCTIONS
      · have hl : ∀ l ∈ some token, l ∉ INSTRUCTIONS := by
          intro l hl
          rw [Option.mem_def, Option.some.injEq] at hl
          rw [← hl]; exact h1
        by_cases ha : m ∈ ARG_INSTRUCTIONS
        · cases rest1 with
          | nil => exact Or.inr (Or.inr (Or.inl ⟨some token, m, hl, ha, rfl⟩))
          | cons t rest' =>
            exact Or.inr (Or.inr (Or.inr ⟨⟨some token, m, some t⟩, rest',
              ⟨hl, h2, by simp [ha]⟩, rfl⟩))
        · exact Or.inr (Or.inr (Or.inr ⟨⟨some token, m, none⟩, rest1,
            ⟨hl, h2, by simp [ha]⟩, rfl⟩))
      · exact Or.inr (Or.inl ⟨m, rest1, h1, h2, rfl⟩)

theorem tokens_shape_aux (n : Nat) : ∀ toks : List String, toks.length ≤ n →
    ∃ (P : List statement) (tail : List String), (∀ s ∈ P, s.valid) ∧
      toks = P.flatMap statement.tokens ++ tail ∧
      (tail = [] ∨
       (∃ t, t ∉ INSTRUCTIONS ∧ tail = [t]) ∨
       (∃ t₁ t₂ rest, t₁ ∉ INSTRUCTIONS ∧ t₂ ∉ INSTRUCTIONS ∧ tail = t₁ :: t₂ :: rest) ∨
       (∃ (label : Option String) (m : String), (∀ l ∈ label, l ∉ INSTRUCTIONS) ∧
         m ∈ ARG_INSTRUCTIONS ∧ tail = label.toList ++ [m])) := by
  induction n with
  | zero =>
    intro toks h
    have : toks = [] := List.length_eq_zero.1 (Nat.le_zero.1 h)
    exact ⟨[], [], by simp, by simp [this], Or.inl rfl⟩
  | succ n ih =>
    intro toks h
    cases toks with
    | nil => exact ⟨[], [], by simp, by simp, Or.inl rfl⟩
    | cons token rest =>
      rcases tokens_head token rest with ⟨h1, h2⟩ | ⟨t₂, rest', h1, h2, h3⟩ |
        ⟨label, m, hl, hm, heq⟩ | ⟨s, rest', hs, heq⟩
      · exact ⟨[], [token], by simp, by simp [h2], Or.inr (Or.inl ⟨token, h1, rfl⟩)⟩
      · exact ⟨[], token :: rest, by simp, by simp,
          Or.inr (Or.inr (Or.inl ⟨token, t₂, rest', h1, h2, by rw [h3]⟩))⟩
      · exact ⟨[], token :: rest, by simp, by simp,
          Or.inr (Or.inr (Or.inr ⟨label, m, hl, hm, heq⟩))⟩
      · have hlen : rest'.length ≤ n := by
          have h1 := statement_tokens_length s
          have h2 := congrArg List.length heq
          simp only [List.length_append] at h2
          omega
        obtain ⟨P, tail, hP, htoks, hshape⟩ := ih rest' hlen
        refine ⟨s :: P, tail, ?_, ?_, hshape⟩
        · intro x hx
          rcases List.mem_cons.1 hx with rfl | hx
          · exact hs
          · exact hP x hx
        · rw [heq, List.flatMap_cons, List.append_assoc, ← htoks]

/-- Every token sequence is a sequence of valid statements followed by one of
four endings: nothing; a lone token that is not a mnemonic; two tokens that
are not mnemonics and whatever comes after; an operand-requiring mnemonic,
with a label or without, as the last token. -/
theorem tokens_shape (toks : List String) :
    ∃ (P : List statement) (tail : List String), (∀ s ∈ P, s.valid) ∧
      toks = P.flatMap statement.tokens ++ tail ∧
      (tail = [] ∨
       (∃ t, t ∉ INSTRUCTIONS ∧ tail = [t]) ∨
       (∃ t₁ t₂ rest, t₁ ∉ INSTRUCTIONS ∧ t₂ ∉ INSTRUCTIONS ∧ tail = t₁ :: t₂ :: rest) ∨
       (∃ (label : Option String) (m : String), (∀ l ∈ label, l ∉ INSTRUCTIONS) ∧
         m ∈ ARG_INSTRUCTIONS ∧ tail = label.toList ++ [m])) :=
  tokens_shape_aux toks.length toks le_rfl

/-- The loop of the parser on valid statements followed by a lone token that
is not a mnemonic: the null pointer reaches `strcmp`. -/
theorem parse_loop_trailing_label (P : List statement) (hP : ∀ s ∈ P, s.valid) (t : String)
    (ht : t ∉ INSTRUCTIONS) (fuel : Nat) (chain : List instruction) (error : Option String)
    (hfuel : (P.flatMap statement.tokens ++ [t]).length ≤ fuel) :
    asm_parse_loop fuel chain error (P.flatMap statement.tokens ++ [t]) = none := by
  have hlen := statements_tokens_length P
  simp only [List.length_append, List.length_singleton] at hfuel
  obtain ⟨k, rfl⟩ : ∃ k, fuel = P.length + (k + 1) := ⟨fuel - P.length - 1, by omega⟩
  have e : asm_is_instruction t = false := by
    rw [Bool.eq_false_iff]; exact fun h => ht ((asm_is_instruction_iff t).1 h)
  rw [parse_statements P hP]
  simp [asm_parse_loop, e]

/-- The parser has no result exactly on the sources made of valid statements
followed by a last token that is not a mnemonic: a label with nothing after
it. -/
theorem asm_parse_src_undefined_iff (cap : Nat) (src : String) :
    asm_parse_src (asm_make_compilation_result cap) src = none ↔
      ∃ (P : List statement) (t : String), (∀ s ∈ P, s.valid) ∧ t ∉ INSTRUCTIONS ∧
        strtok_all src = P.flatMap statement.tokens ++ [t] := by
  constructor
  · intro h
    obtain ⟨P, tail, hP, htoks, hshape⟩ := tokens_shape (strtok_all src)
    obtain ⟨fuel, hfuel, hparse⟩ := asm_parse_src_valid_then cap src P tail htoks hP
    rw [hparse] at h
    rcases hshape with rfl | ⟨t, ht, rfl⟩ | ⟨t₁, t₂, rest, h₁, h₂, rfl⟩ | ⟨label, m, hl, hm, rfl⟩
    · rw [parse_loop_nil] at h; cases h
    · exact ⟨P, t, hP, ht, htoks⟩
    · obtain ⟨k, rfl⟩ : ∃ k, fuel = k + 1 := ⟨fuel - 1, by simp at hfuel; omega⟩
      have e₁ : asm_is_instruction t₁ = false := by
        rw [Bool.eq_false_iff]; exact fun h => h₁ ((asm_is_instruction_iff t₁).1 h)
      have e₂ : asm_is_instruction t₂ = false := by
        rw [Bool.eq_false_iff]; exact fun h => h₂ ((asm_is_instruction_iff t₂).1 h)
      simp [asm_parse_loop, e₁, e₂] at h
    · obtain ⟨k, rfl⟩ : ∃ k, fuel = k + 1 := ⟨fuel - 1, by simp at hfuel; omega⟩
      have e₁ : asm_is_instruction m = true :=
        (asm_is_instruction_iff m).2 (ARG_INSTRUCTIONS_subset m hm)
      have e₂ : asm_instruction_requires_arg m = true :=
        (asm_instruction_requires_arg_iff m).2 hm
      cases label with
      | none => simp [asm_parse_loop, e₁, e₂] at h
      | some l =>
        have e₃ : asm_is_instruction l = false := by
          rw [Bool.eq_false_iff]
          exact fun h => hl l rfl ((asm_is_instruction_iff l).1 h)
        simp [asm_parse_loop, e₁, e₂, e₃] at h
  · rintro ⟨P, t, hP, ht, htoks⟩
    rw [asm_parse_src_fresh, htoks, parse_loop_trailing_label P hP t ht _ _ _ le_rfl]
    rfl

/-! ## Where the code departs from its specification -/

/-- C2: the layout of the output array, and the source on which there is
none.  On every source that `asm_parse_src` turns into a record `r` whose
instructions fit in the array, `asm_assemble` yields the words stored for the
instructions of `r.root` in list order, each instruction's words starting at
its offset, followed only by zeros; the words stored are those of the
encoding table whenever the words of the table fit an `int`;
`CALL target / target HLT` yields 920, 403, 910, 0, 0, ...  On `DAT 5 Y` the
parser reads the label `Y`, finds no further token and hands the null pointer
to `strcmp`: `asm_assemble` has no result, where the array 5, 0, 0, ... is
claimed.  The parser has no result exactly on the sources that end so: valid
statements, then a last token that is not a mnemonic.  On `ADD 2147483647`,
whose immediate the parser did not clamp, the C sum overflows and the word
stored is -2147483549. -/
theorem asm_assemble_layout_and_trailing_label :
    (∀ (cap : Nat) (src : String) (r : compilation_result),
      asm_parse_src (asm_make_compilation_result cap) src = some r →
      total_width r.root ≤ cap →
      ∃ r', asm_assemble cap src = some r' ∧ r'.root = r.root ∧
        r'.code = encoded r.root r.root ++ List.replicate (cap - total_width r.root) 0 ∧
        (∀ pre i post, r.root = pre ++ i :: post →
          i.offset = ((encoded r.root pre).length : Int) ∧
          (stored_words i.instruction (gen_operand r.root i)).length = width i.instruction) ∧
        ((∀ i ∈ r.root, ∀ w ∈ encoding i.instruction (gen_operand r.root i), fits_int w) →
          r'.code = (r.root.flatMap fun i => encoding i.instruction (gen_operand r.root i)) ++
            List.replicate (cap - total_width r.root) 0)) ∧
    (∀ cap : Nat, 4 ≤ cap →
      ∃ r', asm_assemble cap "CALL target \n target HLT" = some r' ∧
        r'.code = [920, 403, 910, 0] ++ List.replicate (cap - 4) 0) ∧
    (∀ cap : Nat, asm_assemble cap "DAT 5 Y" = none) ∧
    (∀ (cap : Nat) (src : String),
      asm_parse_src (asm_make_compilation_result cap) src = none ↔
        ∃ (P : List statement) (t : String), (∀ s ∈ P, s.valid) ∧ t ∉ INSTRUCTIONS ∧
          strtok_all src = P.flatMap statement.tokens ++ [t]) ∧
    asm_assemble 2 "ADD 2147483647" =
      some { root := [⟨"ADD", none, none, 2147483647, 0, 1⟩]
             error := some ASM_ERROR_OUT_OF_RANGE
             code := [-2147483549, 0] } := by
  refine ⟨?_, ?_, ?_, asm_parse_src_undefined_iff, by decide⟩
  · intro cap src r h hfit
    obtain ⟨hl, _⟩ := asm_parse_src_laid_out cap src r h
    refine ⟨_, asm_assemble_layout cap src r h hfit, rfl, rfl, ?_, ?_⟩
    · intro pre i post hroot
      have hoff := laid_out_offset 0 _ pre post i hl hroot
      rw [hroot, laid_out_append] at hl
      obtain ⟨hpre, _, _, hm, _⟩ := hl
      rw [encoded_length r.root pre 0 hpre, hoff]
      exact ⟨by simp, stored_words_length _ _ hm⟩
    · intro hint
      simp only
      congr 1
      unfold encoded
      apply List.flatMap_congr
      intro i hi
      exact stored_words_eq_encoding _ _ (hint i hi)
  · intro cap hcap
    have hp : asm_parse_src (asm_make_compilation_result cap) "CALL target \n target HLT" =
        some { root := [⟨"CALL", none, some "target", 0, 0, 3⟩,
                 ⟨"HLT", some "target", none, 0, 3, 1⟩]
               error := none
               code := List.replicate cap 0 } := by
      rw [asm_parse_src_fresh]; rfl
    exact ⟨_, asm_assemble_layout cap _ _ hp hcap, rfl⟩
  · intro cap
    have hp : asm_parse_src (asm_make_compilation_result cap) "DAT 5 Y" = none := by
      rw [asm_parse_src_fresh]; rfl
    rw [asm_assemble, hp]
    rfl

/-- C5: the clamp of the parser is applied to its local `value` after the
node was made from it, so the node keeps the literal: `DAT 1000` assembles to
the word 1000 and `DAT -1500` to the word -1500 (with the error OutOfRange),
where 999 and -999 are claimed, and the immediates of the built instructions
are 1000 and -1500, outside -999..999. -/
theorem asm_assemble_does_not_clamp (cap : Nat) :
    asm_assemble (cap + 1) "DAT 1000" =
      some { root := [⟨"DAT", none, none, 1000, 0, 1⟩]
             error := some ASM_ERROR_OUT_OF_RANGE
             code := 1000 :: List.replicate cap 0 } ∧
    asm_assemble (cap + 1) "DAT -1500" =
      some { root := [⟨"DAT", none, none, -1500, 0, 1⟩]
             error := some ASM_ERROR_OUT_OF_RANGE
             code := -1500 :: List.replicate cap 0 } := by
  constructor
  · have hp : asm_parse_src (asm_make_compilation_result (cap + 1)) "DAT 1000" =
        some { root := [⟨"DAT", none, none, 1000, 0, 1⟩]
               error := some ASM_ERROR_OUT_OF_RANGE
               code := List.replicate (cap + 1) 0 } := by
      rw [asm_parse_src_fresh]; rfl
    rw [asm_assemble_layout (cap + 1) _ _ hp (by simp [total_width, width])]
    simp [gen_loop_error, gen_error, encoded, stored_words, stored_table, gen_operand,
      total_width, width]
  · have hp : asm_parse_src (asm_make_compilation_result (cap + 1)) "DAT -1500" =
        some { root := [⟨"DAT", none, none, -1500, 0, 1⟩]
               error := some ASM_ERROR_OUT_OF_RANGE
               code := List.replicate (cap + 1) 0 } := by
      rw [asm_parse_src_fresh]; rfl
    rw [asm_assemble_layout (cap + 1) _ _ hp (by simp [total_width, width])]
    simp [gen_loop_error, gen_error, encoded, stored_words, stored_table, gen_operand,
      total_width, width]

/-- C9: on a source that is a single token and not a recognized mnemonic,
such as `FOO`, the parser takes the token for a label, `strtok` returns the
null pointer and `asm_is_instruction` hands it to `strcmp`: neither
`asm_parse_src` nor `asm_assemble` has a result, where the error
UnknownInstruction with an empty list and an untouched array is claimed. -/
theorem asm_assemble_single_unknown_token :
    (∀ (cap : Nat) (src t : String), strtok_all src = [t] → t ∉ INSTRUCTIONS →
      asm_parse_src (asm_make_compilation_result cap) src = none ∧
        asm_assemble cap src = none) ∧
    (∀ cap : Nat, asm_assemble cap "FOO" = none) := by
  have key : ∀ (cap : Nat) (src t : String), strtok_all src = [t] → t ∉ INSTRUCTIONS →
      asm_parse_src (asm_make_compilation_result cap) src = none ∧
        asm_assemble cap src = none := by
    intro cap src t hsrc ht
    have e : asm_is_instruction t = false := by
      rw [Bool.eq_false_iff]; exact fun h => ht ((asm_is_instruction_iff t).1 h)
    have hp : asm_parse_src (asm_make_compilation_result cap) src = none := by
      rw [asm_parse_src_fresh, hsrc]
      simp [asm_parse_loop, e]
    exact ⟨hp, by rw [asm_assemble, hp]; rfl⟩
  exact ⟨key, fun cap => (key cap "FOO" "FOO" (by decide) (by decide)).2⟩

/-! ## Every outcome of the parser -/

theorem parse_loop_two_unknown (k : Nat) (chain : List instruction) (error : Option String)
    (t₁ t₂ : String) (rest : List String) (h₁ : t₁ ∉ INSTRUCTIONS) (h₂ : t₂ ∉ INSTRUCTIONS) :
    asm_parse_loop (k + 1) chain error (t₁ :: t₂ :: rest) =
      some (chain, some ASM_ERROR_UNKNOWN_INSTRUCTION) := by
  have e₁ : asm_is_instruction t₁ = false := by
    rw [Bool.eq_false_iff]; exact fun h => h₁ ((asm_is_instruction_iff t₁).1 h)
  have e₂ : asm_is_instruction t₂ = false := by
    rw [Bool.eq_false_iff]; exact fun h => h₂ ((asm_is_instruction_iff t₂).1 h)
  simp [asm_parse_loop, e₁, e₂]

theorem parse_loop_missing_operand (k : Nat) (chain : List instruction)
    (error : Option String) (label : Option String) (m : String)
    (hl : ∀ l ∈ label, l ∉ INSTRUCTIONS) (hm : m ∈ ARG_INSTRUCTIONS) :
    asm_parse_loop (k + 1) chain error (label.toList ++ [m]) =
      some (chain, some ASM_ERROR_ARG_REQUIRED) := by
  have e₁ : asm_is_instruction m = true :=
    (asm_is_instruction_iff m).2 (ARG_INSTRUCTIONS_subset m hm)
  have e₂ : asm_instruction_requires_arg m = true :=
    (asm_instruction_requires_arg_iff m).2 hm
  cases label with
  | none => simp [asm_parse_loop, e₁, e₂]
  | some l =>
    have e₃ : asm_is_instruction l = false := by
      rw [Bool.eq_false_iff]
      exact fun h => hl l rfl ((asm_is_instruction_iff l).1 h)
    simp [asm_parse_loop, e₁, e₂, e₃]

/-- Every result of the parser on a fresh record: the source is a sequence `P`
of valid statements followed by one of three endings, the list is the one
built for `P`, and the error slot is what the statements of `P` left
(nothing after `P`), UnknownInstruction (two tokens that are not mnemonics
after `P`) or ArgumentRequired (an operand-requiring mnemonic as last
token). -/
theorem asm_parse_src_outcome (cap : Nat) (src : String) (r : compilation_result)
    (h : asm_parse_src (asm_make_compilation_result cap) src = some r) :
    ∃ (P : List statement) (tail : List String), (∀ s ∈ P, s.valid) ∧
      strtok_all src = P.flatMap statement.tokens ++ tail ∧
      r.root = build [] P ∧ r.code = List.replicate cap 0 ∧
      ((tail = [] ∧ r.error = build_error none P) ∨
       (∃ t₁ t₂ rest, t₁ ∉ INSTRUCTIONS ∧ t₂ ∉ INSTRUCTIONS ∧ tail = t₁ :: t₂ :: rest ∧
         r.error = some ASM_ERROR_UNKNOWN_INSTRUCTION) ∨
       (∃ (label : Option String) (m : String), (∀ l ∈ label, l ∉ INSTRUCTIONS) ∧
         m ∈ ARG_INSTRUCTIONS ∧ tail = label.toList ++ [m] ∧
         r.error = some ASM_ERROR_ARG_REQUIRED)) := by
  obtain ⟨P, tail, hP, htoks, hshape⟩ := tokens_shape (strtok_all src)
  obtain ⟨fuel, hfuel, hparse⟩ := asm_parse_src_valid_then cap src P tail htoks hP
  rw [hparse] at h
  refine ⟨P, tail, hP, htoks, ?_⟩
  rcases hshape with rfl | ⟨t, ht, rfl⟩ | ⟨t₁, t₂, rest, h₁, h₂, rfl⟩ | ⟨label, m, hl, hm, rfl⟩
  · rw [parse_loop_nil] at h
    simp only [Option.map_some', Option.some.injEq] at h
    subst h
    exact ⟨rfl, rfl, Or.inl ⟨rfl, rfl⟩⟩
  · exfalso
    have := (asm_parse_src_undefined_iff cap src).2 ⟨P, t, hP, ht, htoks⟩
    rw [hparse] at this
    rw [this] at h
    cases h
  · obtain ⟨k, rfl⟩ : ∃ k, fuel = k + 1 := ⟨fuel - 1, by simp at hfuel; omega⟩
    rw [parse_loop_two_unknown k _ _ t₁ t₂ rest h₁ h₂] at h
    simp only [Option.map_some', Option.some.injEq] at h
    subst h
    exact ⟨rfl, rfl, Or.inr (Or.inl ⟨t₁, t₂, rest, h₁, h₂, rfl, rfl⟩)⟩
  · obtain ⟨k, rfl⟩ : ∃ k, fuel = k + 1 := ⟨fuel - 1, by simp at hfuel; omega⟩
    rw [parse_loop_missing_operand k _ _ label m hl hm] at h
    simp only [Option.map_some', Option.some.injEq] at h
    subst h
    exact ⟨rfl, rfl, Or.inr (Or.inr ⟨label, m, hl, hm, rfl, rfl⟩)⟩

/-! ## The error slot after the statements -/

theorem statement_error_eq (s : statement) (error : Option String) :
    s.error error = if s.out_of_range then some ASM_ERROR_OUT_OF_RANGE else error := by
  obtain ⟨label, m, operand⟩ := s
  cases operand with
  | none => simp [statement.error, statement.out_of_range]
  | some t =>
    simp only [statement.error, statement.out_of_range, stored_value]

theorem build_error_eq (ss : List statement) (error : Option String) :
    build_error error ss =
      if ∃ s ∈ ss, s.out_of_range then some ASM_ERROR_OUT_OF_RANGE else error := by
  induction ss generalizing error with
  | nil => simp [build_error]
  | cons a ss ih =>
    rw [build_error, ih, statement_error_eq]
    by_cases ha : a.out_of_range
    · simp [ha]
    · simp [ha]

/-! ## The fields of the nodes built from statements -/

theorem build_map_value (chain : List instruction) (ss : List statement) :
    (build chain ss).map (fun i => i.value) =
      chain.map (fun i => i.value) ++
        ss.map (fun s => match s.operand with
          | some token => stored_value token
          | none => 0) := by
  induction ss generalizing chain with
  | nil => simp [build]
  | cons s ss ih =>
    simp only [build, ih, List.map_append, List.map_cons, List.map_nil, List.append_assoc,
      List.singleton_append]
    congr 2

theorem build_map_label_reference (chain : List instruction) (ss : List statement) :
    (build chain ss).map (fun i => i.label_reference) =
      chain.map (fun i => i.label_reference) ++
        ss.map (fun s => match s.operand with
          | some token => if asm_is_num token then none else some token
          | none => none) := by
  induction ss generalizing chain with
  | nil => simp [build]
  | cons s ss ih =>
    simp only [build, ih, List.map_append, List.map_cons, List.map_nil, List.append_assoc,
      List.singleton_append]
    congr 2

/-! ## The error slot of the parser: the last error wins -/

/-- C11, amended: the parser assigns the error slot without looking at it, so
the error it leaves is the last one it met in token order.  After valid
statements only, the slot holds OutOfRange if some statement stored a number
outside -999..999 and is empty otherwise; when the parser stops on two tokens
that are not mnemonics it holds UnknownInstruction, and when it stops on a
final operand-requiring mnemonic it holds ArgumentRequired, in both cases
whatever the statements before had recorded. -/
theorem asm_parse_src_last_error_wins (cap : Nat) :
    (∀ (src : String) (ss : List statement),
      strtok_all src = ss.flatMap statement.tokens → (∀ s ∈ ss, s.valid) →
      ∃ r, asm_parse_src (asm_make_compilation_result cap) src = some r ∧
        r.error = if ∃ s ∈ ss, s.out_of_range then some ASM_ERROR_OUT_OF_RANGE else none) ∧
    (∀ (src : String) (P : List statement) (t₁ t₂ : String) (rest : List String),
      strtok_all src = P.flatMap statement.tokens ++ t₁ :: t₂ :: rest →
      (∀ s ∈ P, s.valid) → t₁ ∉ INSTRUCTIONS → t₂ ∉ INSTRUCTIONS →
      ∃ r, asm_parse_src (asm_make_compilation_result cap) src = some r ∧
        r.error = some ASM_ERROR_UNKNOWN_INSTRUCTION) ∧
    (∀ (src : String) (P : List statement) (label : Option String) (m : String),
      strtok_all src = P.flatMap statement.tokens ++ (label.toList ++ [m]) →
      (∀ s ∈ P, s.valid) → (∀ l ∈ label, l ∉ INSTRUCTIONS) → m ∈ ARG_INSTRUCTIONS →
      ∃ r, asm_parse_src (asm_make_compilation_result cap) src = some r ∧
        r.error = some ASM_ERROR_ARG_REQUIRED) := by
  refine ⟨?_, ?_, ?_⟩
  · intro src ss hsrc hss
    exact ⟨_, asm_parse_src_valid cap src ss hsrc hss, build_error_eq ss none⟩
  · intro src P t₁ t₂ rest hsrc hP h₁ h₂
    obtain ⟨fuel, hfuel, hparse⟩ := asm_parse_src_valid_then cap src P _ hsrc hP
    obtain ⟨k, rfl⟩ : ∃ k, fuel = k + 1 := ⟨fuel - 1, by simp at hfuel; omega⟩
    rw [parse_loop_two_unknown k _ _ t₁ t₂ rest h₁ h₂] at hparse
    exact ⟨_, hparse, rfl⟩
  · intro src P label m hsrc hP hl hm
    obtain ⟨fuel, hfuel, hparse⟩ := asm_parse_src_valid_then cap src P _ hsrc hP
    obtain ⟨k, rfl⟩ : ∃ k, fuel = k + 1 := ⟨fuel - 1, by simp at hfuel; omega⟩
    rw [parse_loop_missing_operand k _ _ label m hl hm] at hparse
    exact ⟨_, hparse, rfl⟩

/-- A witness for C11: `DAT 1000 HLT` leaves OutOfRange, `DAT 1000 FOO BAR`
leaves UnknownInstruction and `DAT 1000 ADD` leaves ArgumentRequired. -/
theorem asm_parse_src_last_error_wins_witness :
    (∃ r, asm_parse_src (asm_make_compilation_result 4) "DAT 1000 HLT" = some r ∧
      r.error = if ∃ s ∈ [statement.mk none "DAT" (some "1000"), ⟨none, "HLT", none⟩],
        s.out_of_range then some ASM_ERROR_OUT_OF_RANGE else none) ∧
    (∃ r, asm_parse_src (asm_make_compilation_result 4) "DAT 1000 FOO BAR" = some r ∧
      r.error = some ASM_ERROR_UNKNOWN_INSTRUCTION) ∧
    (∃ r, asm_parse_src (asm_make_compilation_result 4) "DAT 1000 ADD" = some r ∧
      r.error = some ASM_ERROR_ARG_REQUIRED) :=
  ⟨(asm_parse_src_last_error_wins 4).1 "DAT 1000 HLT"
      [⟨none, "DAT", some "1000"⟩, ⟨none, "HLT", none⟩] (by decide) (by decide),
    (asm_parse_src_last_error_wins 4).2.1 "DAT 1000 FOO BAR" [⟨none, "DAT", some "1000"⟩]
      "FOO" "BAR" [] (by decide) (by decide) (by decide) (by decide),
    (asm_parse_src_last_error_wins 4).2.2 "DAT 1000 ADD" [⟨none, "DAT", some "1000"⟩]
      none "ADD" (by decide) (by decide) (by decide) (by decide)⟩

/-- C11 as stated fails: in `DAT 1000 FOO BAR` the parser meets OutOfRange
first (it is what `DAT 1000` alone leaves) and UnknownInstruction after it,
and the error it leaves is UnknownInstruction; in `DAT 1000 ADD` the
OutOfRange is replaced by ArgumentRequired. -/
theorem asm_parse_src_first_error_replaced :
    (asm_parse_src (asm_make_compilation_result 4) "DAT 1000").map (fun r => r.error) =
      some (some ASM_ERROR_OUT_OF_RANGE) ∧
    (asm_parse_src (asm_make_compilation_result 4) "DAT 1000 FOO BAR").map (fun r => r.error) =
      some (some ASM_ERROR_UNKNOWN_INSTRUCTION) ∧
    (asm_parse_src (asm_make_compilation_result 4) "DAT 1000 ADD").map (fun r => r.error) =
      some (some ASM_ERROR_ARG_REQUIRED) := by
  refine ⟨by decide, by decide, by decide⟩

/-! ## The failure value of the label lookup -/

theorem asm_find_label_cases (l : List instruction) (L : String) :
    (asm_find_label l L = -1 ∧ ∀ i ∈ l, i.label ≠ some L) ∨
    (∃ j ∈ l, j.label = some L ∧ asm_find_label l L = j.offset) := by
  induction l with
  | nil => exact Or.inl ⟨rfl, by simp⟩
  | cons a l ih =>
    by_cases ha : a.label = some L
    · exact Or.inr ⟨a, List.mem_cons_self _ _, ha, by simp [asm_find_label, ha]⟩
    · rcases ih with ⟨h1, h2⟩ | ⟨j, hj, hjl, hjo⟩
      · refine Or.inl ⟨by simp [asm_find_label, ha, h1], ?_⟩
        intro i hi
        rcases List.mem_cons.1 hi with rfl | hi
        · exact ha
        · exact h2 i hi
      · exact Or.inr ⟨j, List.mem_cons_of_mem _ hj, hjl, by simp [asm_find_label, ha, hjo]⟩

/-- On a list none of whose offsets is -1 the lookup returns -1 exactly when
no node carries the label. -/
theorem asm_find_label_eq_neg_one_iff (l : List instruction) (L : String)
    (h : ∀ i ∈ l, i.offset ≠ -1) :
    asm_find_label l L = -1 ↔ ∀ i ∈ l, i.label ≠ some L := by
  constructor
  · intro hf
    rcases asm_find_label_cases l L with ⟨_, h2⟩ | ⟨j, hj, _, hjo⟩
    · exact h2
    · exact absurd (hjo ▸ hf) (h j hj)
  · exact asm_find_label_absent l L

/-! ## The error slot of code generation: the last failure wins -/

theorem gen_error_eq_failure (root : List instruction) (error : Option String)
    (ins : instruction) (hroot : ∀ j ∈ root, j.offset ≠ -1)
    (hm : ins.instruction ∈ INSTRUCTIONS) :
    gen_error root error ins = (gen_failure root ins).or error := by
  unfold gen_error gen_failure
  rw [if_neg (not_not.2 hm)]
  cases ins.label_reference with
  | none => rfl
  | some L =>
    simp only
    by_cases hL : asm_find_label root L = -1
    · rw [if_pos hL, if_pos ((asm_find_label_eq_neg_one_iff root L hroot).1 hL)]
      rfl
    · rw [if_neg hL, if_neg (fun h => hL ((asm_find_label_eq_neg_one_iff root L hroot).2 h))]
      rfl

/-- One call of `asm_gen_code_for_instruction` on a list whose offsets are
addresses: the error slot takes the failure of the instruction, if it has
one. -/
theorem gen_step (r : compilation_result) (ins : instruction)
    (hroot : ∀ j ∈ r.root, j.offset ≠ -1)
    (hfit : ins.instruction ∈ INSTRUCTIONS →
      0 ≤ ins.offset ∧ ins.offset + width ins.instruction ≤ r.code.length) :
    ∃ r', asm_gen_code_for_instruction r ins = some r' ∧ r'.root = r.root ∧
      r'.code.length = r.code.length ∧
      r'.error = (gen_failure r.root ins).or r.error := by
  by_cases hm : ins.instruction ∈ INSTRUCTIONS
  · obtain ⟨h0, h1⟩ := hfit hm
    refine ⟨_, gen_recognized r ins hm h0 h1, rfl, ?_, gen_error_eq_failure _ _ _ hroot hm⟩
    apply write_words_length
    rw [stored_words_length _ _ hm]
    omega
  · refine ⟨_, gen_unrecognized r ins hm, rfl, rfl, ?_⟩
    simp [gen_failure, hm]

theorem getLast?_filterMap_cons_or {α β : Type} (f : α → Option β) (a : α) (l : List α)
    (e : Option β) :
    (((a :: l).filterMap f).getLast?).or e = ((l.filterMap f).getLast?).or ((f a).or e) := by
  rw [List.filterMap_cons]
  cases hfa : f a with
  | none => simp
  | some b =>
    simp only [List.getLast?_cons, Option.or_some]
    cases (l.filterMap f).getLast? <;> simp

/-- The loop of `asm_gen_code`: the error slot ends as the failure of the last
instruction that has one, or as it was. -/
theorem gen_loop_failures (r : compilation_result) (l : List instruction)
    (hroot : ∀ j ∈ r.root, j.offset ≠ -1)
    (hfit : ∀ i ∈ l, i.instruction ∈ INSTRUCTIONS →
      0 ≤ i.offset ∧ i.offset + width i.instruction ≤ r.code.length) :
    ∃ r', asm_gen_code_loop r l = some r' ∧ r'.root = r.root ∧
      r'.code.length = r.code.length ∧
      r'.error = ((l.filterMap (gen_failure r.root)).getLast?).or r.error := by
  induction l generalizing r with
  | nil => exact ⟨r, rfl, rfl, rfl, by simp⟩
  | cons a l ih =>
    obtain ⟨r₁, h₁, hr₁, hc₁, he₁⟩ := gen_step r a hroot (hfit a (List.mem_cons_self _ _))
    obtain ⟨r₂, h₂, hr₂, hc₂, he₂⟩ := ih r₁ (hr₁ ▸ hroot)
      (fun i hi hm => hc₁ ▸ hfit i (List.mem_cons_of_mem _ hi) hm)
    refine ⟨r₂, ?_, hr₂.trans hr₁, hc₂.trans hc₁, ?_⟩
    · simp only [asm_gen_code_loop, h₁, Option.some_bind, h₂]
    · rw [he₂, hr₁, he₁, getLast?_filterMap_cons_or]

/-- C12: generation surfaces the most recent failure.  For every list whose
offsets are addresses (none is negative) and whose recognized instructions lie
inside the output array, and every initial content `e0` of the error slot,
`asm_gen_code` returns with the error slot equal to the failure of the last
instruction, in list order, that has one (UnknownInstruction for a mnemonic
outside the 25, BadLabel for a label reference that no node carries),
whatever `e0` and the earlier failures were; when no instruction fails the
slot is still `e0`. -/
theorem asm_gen_code_last_failure_wins (l : List instruction) (e0 : Option String)
    (code : List Int)
    (haddr : ∀ i ∈ l, 0 ≤ i.offset)
    (hfit : ∀ i ∈ l, i.instruction ∈ INSTRUCTIONS →
      i.offset + width i.instruction ≤ code.length) :
    ∃ r, asm_gen_code { root := l, error := e0, code := code } = some r ∧ r.root = l ∧
      r.error = ((l.filterMap (gen_failure l)).getLast?).or e0 ∧
      ((∀ i ∈ l, gen_failure l i = none) → r.error = e0) := by
  have hroot : ∀ j ∈ l, j.offset ≠ -1 := fun j hj h => by
    have := haddr j hj
    omega
  obtain ⟨r, h, hr, _, he⟩ := gen_loop_failures { root := l, error := e0, code := code } l
    hroot (fun i hi hm => ⟨haddr i hi, hfit i hi hm⟩)
  refine ⟨r, h, hr, he, ?_⟩
  intro hnone
  have : l.filterMap (gen_failure l) = [] := by
    rw [List.filterMap_eq_nil_iff]
    exact hnone
  rw [he, this]
  rfl

/-- A witness for C12: a list of three instructions of which the first fails on
an unrecognized mnemonic and the second on a label that is nowhere defined;
the slot, first holding OutOfRange, ends as BadLabel. -/
theorem asm_gen_code_last_failure_wins_witness :
    ∃ r, asm_gen_code
        { root := [⟨"NOP", none, none, 0, 0, 1⟩, ⟨"BRA", none, some "nowhere", 0, 1, 1⟩,
            ⟨"HLT", some "end", none, 0, 2, 1⟩]
          error := some ASM_ERROR_OUT_OF_RANGE
          code := [0, 0, 0] } = some r ∧
      r.error = some ASM_ERROR_BAD_LABEL := by
  obtain ⟨r, h, _, he, _⟩ := asm_gen_code_last_failure_wins
    [⟨"NOP", none, none, 0, 0, 1⟩, ⟨"BRA", none, some "nowhere", 0, 1, 1⟩,
      ⟨"HLT", some "end", none, 0, 2, 1⟩]
    (some ASM_ERROR_OUT_OF_RANGE) [0, 0, 0] (by decide) (by decide)
  exact ⟨r, h, he.trans (by decide)⟩

/-! ## Code generation of one instruction, store by store -/

theorem code_store_some (r r' : compilation_result) (i w : Int)
    (h : code_store r i w = some r') : r'.root = r.root ∧ r'.error = r.error := by
  unfold code_store at h
  split_ifs at h
  cases h
  exact ⟨rfl, rfl⟩

theorem code_store_list_some (r r' : compilation_result) (i : Int) (ws : List Int)
    (h : code_store_list r i ws = some r') : r'.root = r.root ∧ r'.error = r.error := by
  induction ws generalizing r i with
  | nil =>
    simp only [code_store_list, Option.some.injEq] at h
    subst h
    exact ⟨rfl, rfl⟩
  | cons w ws ih =>
    simp only [code_store_list] at h
    obtain ⟨r₁, h₁, h₂⟩ := Option.bind_eq_some.1 h
    obtain ⟨a₁, b₁⟩ := code_store_some r r₁ i w h₁
    obtain ⟨a₂, b₂⟩ := ih r₁ (i + 1) h₂
    exact ⟨a₂.trans a₁, b₂.trans b₁⟩

/-- For a recognized mnemonic `asm_gen_code_for_instruction` is the label
lookup followed by the stores of the words of the table, whether they fall
inside the array or not. -/
theorem gen_recognized_stores (result : compilation_result) (ins : instruction)
    (hm : ins.instruction ∈ INSTRUCTIONS) :
    asm_gen_code_for_instruction result ins =
      code_store_list { result with error := gen_error result.root result.error ins }
        ins.offset (stored_words ins.instruction (gen_operand result.root ins)) := by
  have h2 : ∀ i : Int, i + 1 + 1 = i + 2 := fun i => by ring
  rw [mem_INSTRUCTIONS_iff] at hm
  cases hl : ins.label_reference with
  | none =>
    rcases hm with h | h | h | h | h | h | h | h | h | h | h | h | h | h | h | h | h | h | h | h |
      h | h | h | h | h <;>
    · simp only [asm_gen_code_for_instruction, hl, h, String.reduceEq, reduceIte]
      simp [gen_error, gen_operand, hl, stored_words, stored_table, h, code_store_list, h2]
  | some L =>
    by_cases hv : asm_find_label result.root L = -1
    · rcases hm with h | h | h | h | h | h | h | h | h | h | h | h | h | h | h | h | h | h | h |
        h | h | h | h | h | h <;>
      · simp only [asm_gen_code_for_instruction, hl, hv, h, String.reduceEq, reduceIte]
        simp [gen_error, gen_operand, hl, hv, stored_words, stored_table, h, code_store_list, h2]
    · rcases hm with h | h | h | h | h | h | h | h | h | h | h | h | h | h | h | h | h | h | h |
        h | h | h | h | h | h <;>
      · simp only [asm_gen_code_for_instruction, hl, hv, h, String.reduceEq, reduceIte]
        simp [gen_error, gen_operand, hl, hv, stored_words, stored_table, h, code_store_list, h2]

theorem gen_error_cases (root : List instruction) (error : Option String)
    (ins : instruction) :
    gen_error root error ins = error ∨ gen_error root error ins = some ASM_ERROR_BAD_LABEL := by
  unfold gen_error
  cases ins.label_reference with
  | none => exact Or.inl rfl
  | some L =>
    simp only
    split_ifs
    · exact Or.inr rfl
    · exact Or.inl rfl

/-- Whatever `asm_gen_code_for_instruction` returns for a recognized mnemonic
has the list it was given and the error slot of the label lookup. -/
theorem gen_recognized_some (result r' : compilation_result) (ins : instruction)
    (hm : ins.instruction ∈ INSTRUCTIONS)
    (h : asm_gen_code_for_instruction result ins = some r') :
    r'.root = result.root ∧ r'.error = gen_error result.root result.error ins := by
  rw [gen_recognized_stores result ins hm] at h
  exact code_store_list_some _ _ _ _ h

/-! ## Unrecognized mnemonics in code generation -/

/-- C13: code generation checks the mnemonic itself.  For every instruction
and every record, `asm_gen_code_for_instruction` records UnknownInstruction
exactly when the mnemonic is not one of the 25 recognized ones: for such a
mnemonic it returns the record with the error slot set to UnknownInstruction
and the output array and the list unchanged; for a recognized mnemonic the
error slot of any record it returns is the one it was given or BadLabel, and
it does return one when the words lie inside the array. -/
theorem asm_gen_code_for_instruction_unknown_iff (result : compilation_result)
    (ins : instruction) :
    (ins.instruction ∉ INSTRUCTIONS →
      asm_gen_code_for_instruction result ins =
        some { root := result.root
               error := some ASM_ERROR_UNKNOWN_INSTRUCTION
               code := result.code }) ∧
    (ins.instruction ∈ INSTRUCTIONS →
      (∀ r', asm_gen_code_for_instruction result ins = some r' →
        r'.error = result.error ∨ r'.error = some ASM_ERROR_BAD_LABEL) ∧
      (0 ≤ ins.offset → ins.offset + width ins.instruction ≤ result.code.length →
        ∃ r', asm_gen_code_for_instruction result ins = some r')) ∧
    ((∀ e0, ∃ r', asm_gen_code_for_instruction { result with error := e0 } ins = some r' ∧
        r'.error = some ASM_ERROR_UNKNOWN_INSTRUCTION) ↔
      ins.instruction ∉ INSTRUCTIONS) := by
  refine ⟨fun hm => gen_unrecognized result ins hm, fun hm => ⟨?_, ?_⟩, ?_⟩
  · intro r' h
    rw [(gen_recognized_some result r' ins hm h).2]
    exact gen_error_cases _ _ _
  · intro h0 hfit
    exact ⟨_, gen_recognized result ins hm h0 hfit⟩
  · constructor
    · intro h hm
      obtain ⟨r', hr', he⟩ := h none
      have := (gen_recognized_some _ r' ins hm hr').2
      rw [he] at this
      rcases gen_error_cases result.root none ins with h1 | h1
      · rw [h1] at this; cases this
      · rw [h1] at this
        exact absurd this (by decide)
    · intro hm e0
      exact ⟨_, gen_unrecognized _ ins hm, rfl⟩

/-- A witness for C13: the mnemonic `NOP` is not recognized and `HLT` is. -/
theorem asm_gen_code_for_instruction_unknown_iff_witness :
    asm_gen_code_for_instruction { root := [], error := none, code := [7, 7] }
        ⟨"NOP", none, none, 0, 0, 1⟩ =
      some { root := [], error := some ASM_ERROR_UNKNOWN_INSTRUCTION, code := [7, 7] } ∧
    ∃ r', asm_gen_code_for_instruction { root := [], error := none, code := [7, 7] }
        ⟨"HLT", none, none, 0, 0, 1⟩ = some r' :=
  ⟨(asm_gen_code_for_instruction_unknown_iff { root := [], error := none, code := [7, 7] }
      ⟨"NOP", none, none, 0, 0, 1⟩).1 (by decide),
    ((asm_gen_code_for_instruction_unknown_iff { root := [], error := none, code := [7, 7] }
      ⟨"HLT", none, none, 0, 0, 1⟩).2.1 (by decide)).2 (by decide) (by decide)⟩

/-! ## Tokens and the numbers stored for them -/

theorem strtok_chars_nonempty (cs cur : List Char) :
    ∀ t ∈ strtok_chars cs cur, t.toList ≠ [] := by
  induction cs generalizing cur with
  | nil =>
    intro t ht
    simp only [strtok_chars] at ht
    split_ifs at ht with h
    · cases ht
    · rw [List.mem_singleton] at ht
      subst ht
      simpa using h
  | cons c cs ih =>
    intro t ht
    simp only [strtok_chars] at ht
    split_ifs at ht with h1 h2
    · exact ih [] t ht
    · rcases List.mem_cons.1 ht with rfl | ht
      · simpa using h2
      · exact ih [] t ht
    · exact ih _ t ht

/-- A token that `strtok` returns is not the empty string. -/
theorem strtok_all_nonempty (src : String) : ∀ t ∈ strtok_all src, t.toList ≠ [] :=
  strtok_chars_nonempty _ _

theorem digits_of_asm_is_num_loop (ds : List Char) (h : asm_is_num_loop ds = true) :
    ∀ c ∈ ds, '0' ≤ c ∧ c ≤ '9' := by
  induction ds with
  | nil => simp
  | cons c cs ih =>
    simp only [asm_is_num_loop] at h
    split_ifs at h with hc
    intro x hx
    rcases List.mem_cons.1 hx with rfl | hx
    · exact ⟨not_lt.1 (fun h' => hc (Or.inl h')), not_lt.1 (fun h' => hc (Or.inr h'))⟩
    · exact ih h x hx

/-- A token accepted by `asm_is_num` is a decimal literal, the lone `-`, or
empty; for the last two `sscanf` converts nothing. -/
theorem asm_is_num_cases (t : String) (h : asm_is_num t = true) :
    (∃ n, literal_value t = some n ∧ sscanf_d t 0 = int_of_scan n) ∨
    ((t.toList = [] ∨ t.toList = ['-']) ∧ sscanf_d t 0 = 0) := by
  unfold asm_is_num at h
  unfold literal_value sscanf_d
  split at h
  · rename_i ds heq
    by_cases hds : ds = []
    · right
      subst hds
      exact ⟨Or.inr heq, if_pos rfl⟩
    · left
      have hd := digits_of_asm_is_num_loop ds h
      refine ⟨-(decimal ds : Int), ?_, ?_⟩
      · rw [if_pos ⟨hds, hd⟩]
      · rw [if_neg hds, digits_value_eq_decimal]
  · rename_i ds hne
    by_cases hds : t.toList = []
    · right
      exact ⟨Or.inl hds, if_pos hds⟩
    · left
      have hd := digits_of_asm_is_num_loop _ h
      refine ⟨(decimal t.toList : Int), ?_, ?_⟩
      · rw [if_pos ⟨hds, hd⟩]
      · rw [if_neg hds, digits_value_eq_decimal]

/-- The number stored for an operand token is the value of the decimal literal
that the token is, as `sscanf` stores it in an `int`, and 0 for any other token. -/
theorem stored_value_eq (t : String) :
    stored_value t = match literal_value t with
      | some n => int_of_scan n
      | none => 0 := by
  unfold stored_value
  by_cases h : asm_is_num t = true
  · rw [if_pos h]
    rcases asm_is_num_cases t h with ⟨n, hn, hs⟩ | ⟨hshape, hs⟩
    · rw [hn, hs]
    · rw [hs]
      have : literal_value t = none := by
        unfold literal_value
        rcases hshape with h0 | h1
        · rw [h0]; rfl
        · rw [h1]; rfl
      rw [this]
  · rw [if_neg h]
    cases hl : literal_value t with
    | none => rfl
    | some n => exact absurd (scan_literal t n hl).1 h

/-- A token whose literal value, if it has one, lies within -999..999 is
stored as a number within -999..999. -/
theorem stored_value_in_range (t : String)
    (h : ∀ n, literal_value t = some n → -999 ≤ n ∧ n ≤ 999) :
    -999 ≤ stored_value t ∧ stored_value t ≤ 999 := by
  rw [stored_value_eq]
  cases hl : literal_value t with
  | none => simp
  | some n =>
    obtain ⟨h1, h2⟩ := h n hl
    simp only
    rw [int_of_scan_id n (by omega) (by omega)]
    exact ⟨h1, h2⟩

/-! ## The range of the emitted words -/

theorem laid_out_bounds (o : Int) (l : List instruction) (hl : laid_out o l) :
    ∀ j ∈ l, o ≤ j.offset ∧ j.offset + width j.instruction ≤ o + total_width l := by
  intro j hj
  obtain ⟨pre, post, rfl⟩ := List.append_of_mem hj
  have hoff := laid_out_offset o _ pre post j hl rfl
  rw [hoff, total_width_append, total_width_cons]
  push_cast
  constructor <;> omega

theorem operand_mem_tokens (ss : List statement) (s : statement) (t : String)
    (hs : s ∈ ss) (ht : s.operand = some t) : t ∈ ss.flatMap statement.tokens := by
  rw [List.mem_flatMap]
  exact ⟨s, hs, by simp [statement.tokens, ht]⟩

/-- A token other than the lone `-` that `strtok` can return is accepted by
`asm_is_num` exactly when it is a decimal literal. -/
theorem asm_is_num_iff_literal (t : String) (h0 : t.toList ≠ []) (h1 : t ≠ "-") :
    asm_is_num t = true ↔ ∃ n, literal_value t = some n := by
  constructor
  · intro h
    rcases asm_is_num_cases t h with ⟨n, hn, _⟩ | ⟨hshape | hshape, _⟩
    · exact ⟨n, hn⟩
    · exact absurd hshape h0
    · exfalso
      apply h1
      have : t = String.mk t.toList := rfl
      rw [this, hshape]
  · rintro ⟨n, hn⟩
    exact (scan_literal t n hn).1

theorem build_getElem? (ss : List statement) (k : Nat) (s : statement)
    (hk : ss[k]? = some s) :
    ∃ node, (build [] ss)[k]? = some node ∧ node.instruction = s.mnemonic ∧
      node.label = s.label ∧
      node.value = (match s.operand with
        | some token => stored_value token
        | none => 0) ∧
      node.label_reference = (match s.operand with
        | some token => if asm_is_num token then none else some token
        | none => none) := by
  have hlen : k < (build [] ss).length := by
    rw [build_length]
    have := (List.getElem?_eq_some.1 hk).1
    simpa using this
  refine ⟨(build [] ss)[k], List.getElem?_eq_getElem hlen, ?_, ?_, ?_, ?_⟩
  · have := congrArg (fun l => l[k]?) (build_map_instruction [] ss)
    simp only [List.map_nil, List.nil_append, List.getElem?_map, hk,
      List.getElem?_eq_getElem hlen, Option.map_some', Option.some.injEq] at this
    exact this
  · have := congrArg (fun l => l[k]?) (build_map_label [] ss)
    simp only [List.map_nil, List.nil_append, List.getElem?_map, hk,
      List.getElem?_eq_getElem hlen, Option.map_some', Option.some.injEq] at this
    exact this
  · have := congrArg (fun l => l[k]?) (build_map_value [] ss)
    simp only [List.map_nil, List.nil_append, List.getElem?_map, hk,
      List.getElem?_eq_getElem hlen, Option.map_some', Option.some.injEq] at this
    exact this
  · have := congrArg (fun l => l[k]?) (build_map_label_reference [] ss)
    simp only [List.map_nil, List.nil_append, List.getElem?_map, hk,
      List.getElem?_eq_getElem hlen, Option.map_some', Option.some.injEq] at this
    exact this

/-- C16, amended: the classification of operands.  In a source made of valid
statements, for every statement with an operand token `t` other than the lone
`-`, the instruction that `asm_parse_src` builds for it has no
`label_reference` exactly when `t` is a decimal literal (an optional leading
`-`, at least one decimal digit and nothing else); its immediate is then the
value of the literal when that value fits a 32-bit `int`; every other token is
stored verbatim as the `label_reference` with immediate 0, be it a recognized
mnemonic or the name of no label. -/
theorem asm_parse_src_classifies_operands (cap : Nat) (src : String) (ss : List statement)
    (hsrc : strtok_all src = ss.flatMap statement.tokens) (hss : ∀ s ∈ ss, s.valid) :
    ∃ r, asm_parse_src (asm_make_compilation_result cap) src = some r ∧
      r.root.length = ss.length ∧
      ∀ (k : Nat) (s : statement) (t : String),
        ss[k]? = some s → s.operand = some t → t ≠ "-" →
        ∃ node, r.root[k]? = some node ∧ node.instruction = s.mnemonic ∧
          (node.label_reference = none ↔ ∃ n, literal_value t = some n) ∧
          (∀ n, literal_value t = some n → -2147483648 ≤ n → n ≤ 2147483647 →
            node.value = n ∧ node.label_reference = none) ∧
          (literal_value t = none → node.label_reference = some t ∧ node.value = 0) := by
  refine ⟨_, asm_parse_src_valid cap src ss hsrc hss, by simp [build_length], ?_⟩
  intro k s t hk ho ht
  obtain ⟨node, hnode, hi, _, hv, hr⟩ := build_getElem? ss k s hk
  have hs : s ∈ ss := by
    obtain ⟨hlt, heq⟩ := List.getElem?_eq_some.1 hk
    exact heq ▸ List.getElem_mem hlt
  have hmem : t ∈ strtok_all src := hsrc ▸ operand_mem_tokens ss s t hs ho
  have h0 := strtok_all_nonempty src t hmem
  have hiff := asm_is_num_iff_literal t h0 ht
  rw [ho] at hv hr
  simp only at hv hr
  refine ⟨node, hnode, hi, ?_, ?_, ?_⟩
  · rw [hr, ← hiff]
    by_cases hnum : asm_is_num t = true
    · simp [hnum]
    · simp [hnum]
  · intro n hn h1 h2
    have hnum := (scan_literal t n hn).1
    rw [hv, hr, stored_value_eq, hn]
    simp only [hnum, reduceIte]
    exact ⟨int_of_scan_id n h1 h2, trivial⟩
  · intro hn
    have hnum : ¬ asm_is_num t = true := fun h => by
      obtain ⟨n, hn'⟩ := hiff.1 h
      rw [hn] at hn'
      cases hn'
    rw [hv, hr, stored_value_eq, hn]
    simp [hnum]

/-- A witness for C16: the source `BRA 12 / LDA HLT / ADD nowhere`, whose
operand `12` is a literal and whose operands `HLT` and `nowhere` are not. -/
theorem asm_parse_src_classifies_operands_witness :
    ∃ r, asm_parse_src (asm_make_compilation_result 4) "BRA 12 \n LDA HLT \n ADD nowhere" =
        some r ∧
      r.root.length = [statement.mk none "BRA" (some "12"), ⟨none, "LDA", some "HLT"⟩,
        ⟨none, "ADD", some "nowhere"⟩].length ∧
      ∀ (k : Nat) (s : statement) (t : String),
        [statement.mk none "BRA" (some "12"), ⟨none, "LDA", some "HLT"⟩,
          ⟨none, "ADD", some "nowhere"⟩][k]? = some s → s.operand = some t → t ≠ "-" →
        ∃ node, r.root[k]? = some node ∧ node.instruction = s.mnemonic ∧
          (node.label_reference = none ↔ ∃ n, literal_value t = some n) ∧
          (∀ n, literal_value t = some n → -2147483648 ≤ n → n ≤ 2147483647 →
            node.value = n ∧ node.label_reference = none) ∧
          (literal_value t = none → node.label_reference = some t ∧ node.value = 0) :=
  asm_parse_src_classifies_operands 4 "BRA 12 \n LDA HLT \n ADD nowhere"
    [⟨none, "BRA", some "12"⟩, ⟨none, "LDA", some "HLT"⟩, ⟨none, "ADD", some "nowhere"⟩]
    (by decide) (by decide)

/-- C16 as stated fails: the lone `-` is no decimal literal, yet `DAT -` is
stored as the immediate 0 with no `label_reference`; and the literal
4294967296 of `DAT 4294967296`, which does not fit an `int`, is stored as the
immediate 0. -/
theorem asm_parse_src_operand_misclassified :
    literal_value "-" = none ∧
    asm_parse_src (asm_make_compilation_result 1) "DAT -" =
      some { root := [⟨"DAT", none, none, 0, 0, 1⟩], error := none, code := [0] } ∧
    literal_value "4294967296" = some 4294967296 ∧
    asm_parse_src (asm_make_compilation_result 1) "DAT 4294967296" =
      some { root := [⟨"DAT", none, none, 0, 0, 1⟩], error := none, code := [0] } := by
  refine ⟨by decide, by decide, by decide, by decide⟩

/-! ## Code generation on the list of the parser -/

theorem laid_out_recognized (o : Int) (l : List instruction) (hl : laid_out o l) :
    ∀ i ∈ l, i.instruction ∈ INSTRUCTIONS := by
  induction l generalizing o with
  | nil => simp
  | cons a l ih =>
    obtain ⟨_, _, hm, hl'⟩ := hl
    intro i hi
    rcases List.mem_cons.1 hi with rfl | hi
    · exact hm
    · exact ih _ hl' i hi

/-- Whatever the loop of `asm_gen_code` returns over recognized mnemonics has
the list it was given, and the error slot it was given or BadLabel. -/
theorem gen_loop_recognized_some (R r' : compilation_result) (l : List instruction)
    (hm : ∀ i ∈ l, i.instruction ∈ INSTRUCTIONS)
    (h : asm_gen_code_loop R l = some r') :
    r'.root = R.root ∧ (r'.error = R.error ∨ r'.error = some ASM_ERROR_BAD_LABEL) := by
  induction l generalizing R with
  | nil =>
    simp only [asm_gen_code_loop, Option.some.injEq] at h
    subst h
    exact ⟨rfl, Or.inl rfl⟩
  | cons a l ih =>
    simp only [asm_gen_code_loop] at h
    obtain ⟨R₁, h₁, h₂⟩ := Option.bind_eq_some.1 h
    obtain ⟨hr₁, he₁⟩ := gen_recognized_some R R₁ a (hm a (List.mem_cons_self _ _)) h₁
    obtain ⟨hr₂, he₂⟩ := ih R₁ (fun i hi => hm i (List.mem_cons_of_mem _ hi)) h₂
    refine ⟨hr₂.trans hr₁, ?_⟩
    rcases he₂ with he₂ | he₂
    · rw [he₂, he₁]
      exact gen_error_cases _ _ _
    · exact Or.inr he₂

/-- C17: the UnknownInstruction branch of code generation is not reached after
the parser.  Every instruction of the list that `asm_parse_src` produces has
one of the 25 recognized mnemonics; so whatever `asm_gen_code` returns on the
record of the parser has the error slot the parser left or BadLabel, never an
UnknownInstruction of its own; and it does return when the instructions fit
in the output array. -/
theorem asm_gen_code_on_parsed_list (cap : Nat) (src : String) (r : compilation_result)
    (h : asm_parse_src (asm_make_compilation_result cap) src = some r) :
    (∀ i ∈ r.root, i.instruction ∈ INSTRUCTIONS) ∧
    (∀ i ∈ r.root, gen_failure r.root i ≠ some ASM_ERROR_UNKNOWN_INSTRUCTION) ∧
    (∀ r', asm_gen_code r = some r' →
      r'.error = r.error ∨ r'.error = some ASM_ERROR_BAD_LABEL) ∧
    (total_width r.root ≤ cap → ∃ r', asm_gen_code r = some r') := by
  obtain ⟨hl, hc⟩ := asm_parse_src_laid_out cap src r h
  have hm := laid_out_recognized 0 r.root hl
  refine ⟨hm, ?_, ?_, ?_⟩
  · intro i hi
    unfold gen_failure
    rw [if_neg (not_not.2 (hm i hi))]
    cases i.label_reference with
    | none => simp
    | some L =>
      simp only
      split_ifs
      · decide
      · simp
  · intro r' hr'
    exact (gen_loop_recognized_some r r' r.root hm hr').2
  · intro hfit
    exact ⟨_, gen_loop_laid_out r r.root 0 le_rfl hl (by rw [hc]; simpa using hfit)⟩

/-- A witness for C17: the source `BRA nowhere / HLT FOO BAR`, on which the
parser stops with UnknownInstruction after two instructions. -/
theorem asm_gen_code_on_parsed_list_witness :
    (∀ i ∈ [instruction.mk "BRA" none (some "nowhere") 0 0 1, ⟨"HLT", none, none, 0, 1, 1⟩],
      i.instruction ∈ INSTRUCTIONS) ∧
    (∀ i ∈ [instruction.mk "BRA" none (some "nowhere") 0 0 1, ⟨"HLT", none, none, 0, 1, 1⟩],
      gen_failure [instruction.mk "BRA" none (some "nowhere") 0 0 1,
        ⟨"HLT", none, none, 0, 1, 1⟩] i ≠ some ASM_ERROR_UNKNOWN_INSTRUCTION) ∧
    (∀ r', asm_gen_code
        { root := [⟨"BRA", none, some "nowhere", 0, 0, 1⟩, ⟨"HLT", none, none, 0, 1, 1⟩]
          error := some ASM_ERROR_UNKNOWN_INSTRUCTION
          code := List.replicate 4 0 } = some r' →
      r'.error = some ASM_ERROR_UNKNOWN_INSTRUCTION ∨ r'.error = some ASM_ERROR_BAD_LABEL) ∧
    (total_width [instruction.mk "BRA" none (some "nowhere") 0 0 1,
        ⟨"HLT", none, none, 0, 1, 1⟩] ≤ 4 →
      ∃ r', asm_gen_code
        { root := [⟨"BRA", none, some "nowhere", 0, 0, 1⟩, ⟨"HLT", none, none, 0, 1, 1⟩]
          error := some ASM_ERROR_UNKNOWN_INSTRUCTION
          code := List.replicate 4 0 } = some r') :=
  asm_gen_code_on_parsed_list 4 "BRA nowhere \n HLT FOO BAR"
    { root := [⟨"BRA", none, some "nowhere", 0, 0, 1⟩, ⟨"HLT", none, none, 0, 1, 1⟩]
      error := some ASM_ERROR_UNKNOWN_INSTRUCTION
      code := List.replicate 4 0 }
    (by decide)

/-! ## The sentinel of `asm_find_label` on the list of the parser -/

/-- The error slot after the loop of code generation over recognized
mnemonics: BadLabel when some lookup returned the sentinel, the slot it was
given otherwise. -/
theorem gen_loop_error_cases (root : List instruction) (error : Option String)
    (l : List instruction) :
    (gen_loop_error root error l = some ASM_ERROR_BAD_LABEL ∧
      ∃ i ∈ l, ∃ L, i.label_reference = some L ∧ asm_find_label root L = -1) ∨
    (gen_loop_error root error l = error ∧
      ∀ i ∈ l, ∀ L, i.label_reference = some L → asm_find_label root L ≠ -1) := by
  induction l generalizing error with
  | nil => exact Or.inr ⟨rfl, by simp⟩
  | cons a l ih =>
    rw [gen_loop_error]
    rcases ih (gen_error root error a) with ⟨h1, i, hi, L, hL, hf⟩ | ⟨h1, h2⟩
    · exact Or.inl ⟨h1, i, List.mem_cons_of_mem _ hi, L, hL, hf⟩
    · rw [h1]
      unfold gen_error
      cases ha : a.label_reference with
      | none =>
        refine Or.inr ⟨rfl, ?_⟩
        intro i hi L hL
        rcases List.mem_cons.1 hi with rfl | hi
        · rw [ha] at hL; cases hL
        · exact h2 i hi L hL
      | some La =>
        simp only
        by_cases hf : asm_find_label root La = -1
        · rw [if_pos hf]
          exact Or.inl ⟨rfl, a, List.mem_cons_self _ _, La, ha, hf⟩
        · rw [if_neg hf]
          refine Or.inr ⟨rfl, ?_⟩
          intro i hi L hL
          rcases List.mem_cons.1 hi with rfl | hi
          · rw [ha] at hL
            cases hL
            exact hf
          · exact h2 i hi L hL

theorem asm_assemble_some (cap : Nat) (src : String) (r' : compilation_result)
    (h : asm_assemble cap src = some r') :
    ∃ r, asm_parse_src (asm_make_compilation_result cap) src = some r := by
  unfold asm_assemble at h
  obtain ⟨r, hr, _⟩ := Option.bind_eq_some.1 h
  exact ⟨r, hr⟩

/-- C18 as amended: when assembly reports no error.  For a source whose
decimal literals fit in a 32-bit `int` and whose instruction list fits in the
output array, `asm_assemble` returns with the error slot empty if and only if
the tokens of the source are those of a sequence of valid statements (the
parser then returns a record `r`), every operand that is a decimal literal
lies within -999..999, and every `label_reference` of the list `r.root` is
the label of some instruction of that list. -/
theorem asm_assemble_no_error_iff (cap : Nat) (src : String)
    (hint : ∀ t ∈ strtok_all src, ∀ n, literal_value t = some n →
      -2147483648 ≤ n ∧ n ≤ 2147483647)
    (hfit : ∀ r, asm_parse_src (asm_make_compilation_result cap) src = some r →
      total_width r.root ≤ cap) :
    (∃ r', asm_assemble cap src = some r' ∧ r'.error = none) ↔
    ∃ (ss : List statement) (r : compilation_result),
      strtok_all src = ss.flatMap statement.tokens ∧ (∀ s ∈ ss, s.valid) ∧
      asm_parse_src (asm_make_compilation_result cap) src = some r ∧
      (∀ s ∈ ss, ∀ t n, s.operand = some t → literal_value t = some n →
        -999 ≤ n ∧ n ≤ 999) ∧
      (∀ i ∈ r.root, ∀ L, i.label_reference = some L → ∃ j ∈ r.root, j.label = some L) := by
  constructor
  · rintro ⟨r', hr', he'⟩
    obtain ⟨r, hr⟩ := asm_assemble_some cap src r' hr'
    rw [asm_assemble_layout cap src r hr (hfit r hr)] at hr'
    simp only [Option.some.injEq] at hr'
    subst hr'
    simp only at he'
    have hpe : r.error = none ∧
        ∀ i ∈ r.root, ∀ L, i.label_reference = some L → asm_find_label r.root L ≠ -1 := by
      rcases gen_loop_error_cases r.root r.error r.root with ⟨hb, _⟩ | ⟨he, hall⟩
      · rw [hb] at he'
        cases he'
      · exact ⟨he ▸ he', hall⟩
    obtain ⟨hre, hall⟩ := hpe
    obtain ⟨P, tail, hP, htoks, hroot, _, ⟨ht, he⟩ | ⟨_, _, _, _, _, _, he⟩ |
      ⟨_, _, _, _, _, he⟩⟩ := asm_parse_src_outcome cap src r hr
    · subst ht
      rw [List.append_nil] at htoks
      refine ⟨P, r, htoks, hP, hr, ?_, ?_⟩
      · intro s hs t n ht hn
        rw [hre, build_error_eq] at he
        have hno : ¬ ∃ s ∈ P, s.out_of_range := by
          intro hex
          rw [if_pos hex] at he
          cases he
        have hs' : ¬ s.out_of_range := fun h => hno ⟨s, hs, h⟩
        have hmem : t ∈ strtok_all src := htoks ▸ operand_mem_tokens P s t hs ht
        obtain ⟨h1, h2⟩ := hint t hmem n hn
        have hsv : stored_value t = n := by
          rw [stored_value_eq, hn]
          exact int_of_scan_id n h1 h2
        simp only [statement.out_of_range, ht, hsv] at hs'
        omega
      · intro i hi L hL
        rcases asm_find_label_cases r.root L with ⟨hf, _⟩ | ⟨j, hj, hjl, _⟩
        · exact absurd hf (hall i hi L hL)
        · exact ⟨j, hj, hjl⟩
    · rw [hre] at he
      cases he
    · rw [hre] at he
      cases he
  · rintro ⟨ss, r, htoks, hss, hr, hlit, hlab⟩
    refine ⟨_, asm_assemble_layout cap src r hr (hfit r hr), ?_⟩
    simp only
    have hr2 := asm_parse_src_valid cap src ss htoks hss
    rw [hr] at hr2
    simp only [Option.some.injEq] at hr2
    have hre : r.error = none := by
      rw [hr2, build_error_eq]
      apply if_neg
      rintro ⟨s, hs, hout⟩
      cases hop : s.operand with
      | none => simp [statement.out_of_range, hop] at hout
      | some t =>
        simp only [statement.out_of_range, hop] at hout
        have := stored_value_in_range t (fun n hn => hlit s hs t n hop hn)
        omega
    obtain ⟨hl, _⟩ := asm_parse_src_laid_out cap src r hr
    rcases gen_loop_error_cases r.root r.error r.root with ⟨_, i, hi, L, hL, hf⟩ | ⟨he, _⟩
    · exfalso
      obtain ⟨j, hj, hjl⟩ := hlab i hi L hL
      have hne : ∀ i ∈ r.root, i.offset ≠ -1 := fun i hi => by
        have := (laid_out_bounds 0 r.root hl i hi).1
        omega
      exact (asm_find_label_eq_neg_one_iff r.root L hne).1 hf j hj hjl
    · rw [he, hre]

/-- A witness for C18 as amended: the source `top LDA n / BRA top / n DAT -999`
at capacity 4. -/
theorem asm_assemble_no_error_iff_witness :
    (∃ r', asm_assemble 4 "top LDA n \n BRA top \n n DAT -999" = some r' ∧ r'.error = none) ↔
    ∃ (ss : List statement) (r : compilation_result),
      strtok_all "top LDA n \n BRA top \n n DAT -999" = ss.flatMap statement.tokens ∧
      (∀ s ∈ ss, s.valid) ∧
      asm_parse_src (asm_make_compilation_result 4) "top LDA n \n BRA top \n n DAT -999" =
        some r ∧
      (∀ s ∈ ss, ∀ t n, s.operand = some t → literal_value t = some n →
        -999 ≤ n ∧ n ≤ 999) ∧
      (∀ i ∈ r.root, ∀ L, i.label_reference = some L → ∃ j ∈ r.root, j.label = some L) :=
  asm_assemble_no_error_iff 4 "top LDA n \n BRA top \n n DAT -999"
    (by decide)
    (by
      intro r hr
      have h : asm_parse_src (asm_make_compilation_result 4)
          "top LDA n \n BRA top \n n DAT -999" =
          some { root := [⟨"LDA", some "top", some "n", 0, 0, 1⟩,
                          ⟨"BRA", none, some "top", 0, 1, 1⟩,
                          ⟨"DAT", some "n", none, -999, 2, 1⟩]
                 error := none
                 code := [0, 0, 0, 0] } := by decide
      rw [h] at hr
      cases hr
      decide)

/-- C18 as stated fails: the source `DAT 4294967296` is assembled with the
error slot empty, although its only operand is a decimal literal that does
not lie within -999..999: `sscanf` stores 0 for it. -/
theorem asm_assemble_no_error_with_large_literal :
    asm_assemble 2 "DAT 4294967296" =
      some { root := [⟨"DAT", none, none, 0, 0, 1⟩], error := none, code := [0, 0] } ∧
    strtok_all "DAT 4294967296" =
      [statement.mk none "DAT" (some "4294967296")].flatMap statement.tokens ∧
    (statement.mk none "DAT" (some "4294967296")).valid ∧
    literal_value "4294967296" = some 4294967296 ∧
    ¬ ((-999 : Int) ≤ 4294967296 ∧ (4294967296 : Int) ≤ 999) := by
  refine ⟨by decide, by decide, by decide, by decide, by decide⟩

end Lmsm

namespace Homework

/-! ## The buffer of `print_binary_representation` -/

theorem buffer_store_at (P Q : List Char) (x c : Char) (n : Nat) (h : n = P.length) :
    buffer_store (P ++ x :: Q) n c = some (P ++ c :: Q) := by
  subst h
  unfold buffer_store
  rw [if_pos (by simp)]
  simp

theorem getElem?_at (P Q : List Char) (x : Char) (n : Nat) (h : n = P.length) :
    (P ++ x :: Q)[n]? = some x := by
  subst h
  rw [List.getElem?_append_right (le_refl _)]
  simp

theorem strlen_append (cs rest : List Char) (h : ∀ c ∈ cs, c ≠ Char.ofNat 0) :
    strlen (cs ++ Char.ofNat 0 :: rest) = some cs.length := by
  induction cs with
  | nil => simp [strlen]
  | cons a cs ih =>
    have ha : a ≠ Char.ofNat 0 := h a (List.mem_cons_self _ _)
    have := ih (fun c hc => h c (List.mem_cons_of_mem _ hc))
    simp [strlen, ha, this]

theorem c_string_append (cs rest : List Char) (h : ∀ c ∈ cs, c ≠ Char.ofNat 0) :
    c_string (cs ++ Char.ofNat 0 :: rest) = String.mk cs := by
  unfold c_string
  congr 1
  induction cs with
  | nil => simp [List.takeWhile]
  | cons a cs ih =>
    have ha : a ≠ Char.ofNat 0 := h a (List.mem_cons_self _ _)
    have := ih (fun c hc => h c (List.mem_cons_of_mem _ hc))
    simpa [List.takeWhile, ha] using this

/-- The mask of iteration `j` selects bit `j`. -/
theorem and_two_pow_ne_zero (i j : Nat) : i &&& 2 ^ j ≠ 0 ↔ i.testBit j = true := by
  constructor
  · intro h
    by_contra hb
    apply h
    apply Nat.eq_of_testBit_eq
    intro k
    rw [Nat.testBit_and, Nat.testBit_two_pow, Nat.zero_testBit]
    by_cases hk : j = k
    · subst hk
      simp [hb]
    · simp [hk]
  · intro hb h
    have := congrArg (fun x => x.testBit j) h
    simp [Nat.testBit_two_pow, hb] at this

/-- The loop that fills the digits: iteration `j` stores the character of
bit `j` at index `j + 2`. -/
theorem fill_spec (i : Nat) : ∀ (fuel j mask : Nat) (pre cur rest : List Char),
    pre.length = j + 2 → cur.length = fuel → j + fuel = 32 → (0 < fuel → mask = 2 ^ j) →
    print_binary_representation_fill fuel j mask i (pre ++ cur ++ rest) =
      some (pre ++ (List.range' j fuel).map (fun j => if i.testBit j then '1' else '0') ++
        rest) := by
  intro fuel
  induction fuel with
  | zero =>
    intro j mask pre cur rest _ hcur _ _
    have : cur = [] := List.length_eq_zero.1 hcur
    subst this
    simp [print_binary_representation_fill]
  | succ fuel ih =>
    intro j mask pre cur rest hpre hcur hj hmask
    obtain ⟨x, cur', rfl⟩ := List.exists_cons_of_length_eq_add_one hcur
    have hm : mask = 2 ^ j := hmask (Nat.succ_pos _)
    subst hm
    have hlt : j < 32 := by omega
    rw [print_binary_representation_fill, if_pos hlt]
    dsimp only
    have e1 : pre ++ x :: cur' ++ rest = pre ++ x :: (cur' ++ rest) := by simp
    rw [e1, buffer_store_at pre _ x _ (j + 2) hpre.symm, Option.some_bind]
    have e2 : pre ++ (if i &&& 2 ^ j ≠ 0 then '1' else '0') :: (cur' ++ rest) =
        (pre ++ [if i.testBit j then '1' else '0']) ++ cur' ++ rest := by
      have : (i &&& 2 ^ j ≠ 0) = (i.testBit j = true) := propext (and_two_pow_ne_zero i j)
      simp only [this]
      simp
    rw [e2, ih (j + 1) _ (pre ++ [if i.testBit j then '1' else '0']) cur' rest
      (by simp [hpre]) (by simpa using hcur) (by omega)]
    · simp [List.range'_succ]
    · intro hf
      have hj1 : j + 1 < 32 := by omega
      rw [Nat.shiftLeft_eq, ← Nat.pow_succ]
      exact Nat.mod_eq_of_lt (Nat.pow_lt_pow_right (by decide) hj1)

/-- The loop that reverses the digits: `k` exchanges, from index `i` upwards
and from index `j` downwards, ending when `i` has reached 17. -/
theorem swap_spec : ∀ (k fuel i j : Nat) (pre front mid back rest : List Char),
    front.length = k → back.length = k → pre.length = i →
    j + 1 = i + k + mid.length + k → i + k = 17 → k ≤ fuel →
    print_binary_representation_swap fuel i j 34 (pre ++ front ++ mid ++ back ++ rest) =
      some (pre ++ back.reverse ++ mid ++ front.reverse ++ rest) := by
  intro k
  induction k with
  | zero =>
    intro fuel i j pre front mid back rest hf hb _ _ hi _
    have h1 : front = [] := List.length_eq_zero.1 hf
    have h2 : back = [] := List.length_eq_zero.1 hb
    subst h1 h2
    have hi17 : i = 17 := by omega
    subst hi17
    cases fuel with
    | zero => simp [print_binary_representation_swap]
    | succ fuel => simp [print_binary_representation_swap]
  | succ k ih =>
    intro fuel i j pre front mid back rest hf hb hpre hj hi hfuel
    obtain ⟨a, front', rfl⟩ := List.exists_cons_of_length_eq_add_one hf
    rcases List.eq_nil_or_concat back with hnil | ⟨back', b, hback⟩
    · subst hnil
      simp at hb
    rw [List.concat_eq_append] at hback
    subst hback
    obtain ⟨fuel', rfl⟩ : ∃ f, fuel = f + 1 := ⟨fuel - 1, by omega⟩
    have hle : i ≤ (34 - 1) / 2 := by omega
    have hbl : back'.length = k := by simpa using hb
    have hfl : front'.length = k := by simpa using hf
    rw [print_binary_representation_swap, if_pos hle]
    have e1 : pre ++ a :: front' ++ mid ++ (back' ++ [b]) ++ rest =
        pre ++ a :: (front' ++ mid ++ back' ++ b :: rest) := by simp
    have e2 : pre ++ a :: front' ++ mid ++ (back' ++ [b]) ++ rest =
        (pre ++ a :: front' ++ mid ++ back') ++ b :: rest := by simp
    have hjlen : j = (pre ++ a :: front' ++ mid ++ back').length := by
      simp [hpre, hfl, hbl]
      omega
    have g1 : (pre ++ a :: front' ++ mid ++ (back' ++ [b]) ++ rest)[i]? = some a := by
      rw [e1]
      exact getElem?_at pre _ a i hpre.symm
    have g2 : (pre ++ a :: front' ++ mid ++ (back' ++ [b]) ++ rest)[j]? = some b := by
      rw [e2]
      exact getElem?_at _ rest b j hjlen
    rw [g1, g2]
    simp only
    rw [e1, buffer_store_at pre _ a b i hpre.symm, Option.some_bind]
    have e3 : pre ++ b :: (front' ++ mid ++ back' ++ b :: rest) =
        (pre ++ b :: front' ++ mid ++ back') ++ b :: rest := by simp
    have hjlen' : j = (pre ++ b :: front' ++ mid ++ back').length := by
      simp [hpre, hfl, hbl]
      omega
    rw [e3, buffer_store_at _ rest b a j hjlen', Option.some_bind]
    have e4 : (pre ++ b :: front' ++ mid ++ back') ++ a :: rest =
        (pre ++ [b]) ++ front' ++ mid ++ back' ++ (a :: rest) := by simp
    rw [e4, ih fuel' (i + 1) (j - 1) (pre ++ [b]) front' mid back' (a :: rest) hfl hbl
      (by simp [hpre]) (by omega) (by omega) (by omega)]
    simp

theorem digit_ne_nul (b : Bool) : (if b = true then '1' else '0') ≠ Char.ofNat 0 := by
  cases b <;> decide

theorem digit_injective (a b : Bool) :
    (if a = true then '1' else '0') = (if b = true then '1' else '0') ↔ a = b := by
  cases a <;> cases b <;> decide

theorem binary_digits_eq (i : Nat) : ∀ n, binary_digits i n =
    (List.range n).map (fun k => if i.testBit (n - 1 - k) then '1' else '0') := by
  intro n
  induction n with
  | zero => rfl
  | succ n ih =>
    rw [binary_digits, ih, List.range_succ_eq_map, List.map_cons, List.map_map]
    congr 1
    apply List.map_congr_left
    intro k hk
    have hk' := List.mem_range.1 hk
    simp only [Function.comp, Nat.succ_eq_add_one]
    have e : n + 1 - 1 - (k + 1) = n - 1 - k := by omega
    rw [e]

/-- The buffer that `print_binary_representation` leaves: `0b`, then the
characters of bits 31 down to 17, of bit 15, of bit 16 and of bits 14 down
to 0; the rest of the buffer is untouched. -/
theorem print_binary_representation_buffer (i m : Nat) :
    print_binary_representation i (zeroed (m + 35)) =
      some ('0' :: 'b' ::
        [31, 30, 29, 28, 27, 26, 25, 24, 23, 22, 21, 20, 19, 18, 17, 15, 16, 14, 13, 12, 11, 10,
          9, 8, 7, 6, 5, 4, 3, 2, 1, 0].map (fun j => if i.testBit j then '1' else '0') ++
        Char.ofNat 0 :: zeroed m) := by
  have hfill := fill_spec i 32 0 1 ['0', 'b'] (List.replicate 32 (Char.ofNat 0))
    (zeroed (m + 1)) rfl (by simp) rfl (fun _ => rfl)
  have hz : zeroed (m + 35) =
      Char.ofNat 0 :: Char.ofNat 0 :: (List.replicate 32 (Char.ofNat 0) ++ zeroed (m + 1)) := by
    unfold zeroed
    rw [← List.replicate_add]
    have : m + 35 = (32 + (m + 1)) + 1 + 1 := by omega
    rw [this]
    rfl
  generalize hg : (fun j => if i.testBit j = true then '1' else '0') = g at hfill ⊢
  have hgne : ∀ j, g j ≠ Char.ofNat 0 := fun j => hg ▸ digit_ne_nul (i.testBit j)
  have hstore : ((buffer_store (zeroed (m + 35)) 0 '0').bind fun buffer =>
      buffer_store buffer 1 'b') =
      some (['0', 'b'] ++ List.replicate 32 (Char.ofNat 0) ++ zeroed (m + 1)) := by
    rw [hz]
    rfl
  unfold print_binary_representation
  rw [← Option.bind_assoc, hstore, Option.some_bind, hfill, Option.some_bind]
  have hlen : strlen (['0', 'b'] ++ List.map g (List.range' 0 32) ++ zeroed (m + 1)) =
      some 34 := by
    have := strlen_append (['0', 'b'] ++ List.map g (List.range' 0 32)) (zeroed m) (by
      intro c hc
      rcases List.mem_append.1 hc with hc | hc
      · rcases List.mem_cons.1 hc with rfl | hc
        · decide
        · rcases List.mem_cons.1 hc with rfl | hc
          · decide
          · cases hc
      · obtain ⟨j, _, rfl⟩ := List.mem_map.1 hc
        exact hgne j)
    simpa [zeroed, List.replicate_succ] using this
  rw [hlen, Option.some_bind]
  have hsplit : ['0', 'b'] ++ List.map g (List.range' 0 32) ++ zeroed (m + 1) =
      ['0', 'b'] ++ List.map g (List.range' 0 15) ++ List.map g (List.range' 15 2) ++
        List.map g (List.range' 17 15) ++ zeroed (m + 1) := rfl
  rw [hsplit, swap_spec 15 34 2 33 ['0', 'b'] _ _ _ _ (by simp) (by simp) rfl (by simp)
    rfl (by decide)]
  rfl

/-- The strings that the test of the repository expects, on its buffer of
50 characters: in each of the eight tested values bits 15 and 16 agree. -/
theorem print_binary_representation_tested_values :
    (print_binary_representation 0 (zeroed 50)).map c_string =
      some "0b00000000000000000000000000000000" ∧
    (print_binary_representation 1 (zeroed 50)).map c_string =
      some "0b00000000000000000000000000000001" ∧
    (print_binary_representation 2 (zeroed 50)).map c_string =
      some "0b00000000000000000000000000000010" ∧
    (print_binary_representation 3 (zeroed 50)).map c_string =
      some "0b00000000000000000000000000000011" ∧
    (print_binary_representation 4 (zeroed 50)).map c_string =
      some "0b00000000000000000000000000000100" ∧
    (print_binary_representation 31431234 (zeroed 50)).map c_string =
      some "0b00000001110111111001101001000010" ∧
    (print_binary_representation 467813213 (zeroed 50)).map c_string =
      some "0b00011011111000100100001101011101" ∧
    (print_binary_representation 4294967295 (zeroed 50)).map c_string =
      some "0b11111111111111111111111111111111" := by
  refine ⟨by decide, by decide, by decide, by decide, by decide, by decide, by decide, by decide⟩

/-- C14: what `print_binary_representation` returns.  For every `i` and every
zero-initialised buffer of at least 35 characters the function returns, and
the string in the buffer is `0b` followed by 32 binary digits; the digit at
index `2 + k` shows bit `31 - k` of `i` except for `k = 15` and `k = 16`, where
it shows bit 15 and bit 16: the two middle digits are exchanged.  So the
string is `0b` followed by the 32 binary digits of `i`, most significant bit
first, exactly when bits 15 and 16 of `i` agree. -/
theorem print_binary_representation_exchanges_middle_digits (i n : Nat) (hn : 35 ≤ n) :
    ∃ out, print_binary_representation i (zeroed n) = some out ∧
      c_string out = String.mk ('0' :: 'b' :: (List.range 32).map (fun k =>
        if i.testBit (if k = 15 then 15 else if k = 16 then 16 else 31 - k)
        then '1' else '0')) ∧
      (c_string out = String.mk ('0' :: 'b' :: binary_digits i 32) ↔
        i.testBit 15 = i.testBit 16) := by
  obtain ⟨m, rfl⟩ : ∃ m, n = m + 35 := ⟨n - 35, by omega⟩
  refine ⟨_, print_binary_representation_buffer i m, ?_⟩
  have hc : c_string ('0' :: 'b' ::
      [31, 30, 29, 28, 27, 26, 25, 24, 23, 22, 21, 20, 19, 18, 17, 15, 16, 14, 13, 12, 11, 10,
        9, 8, 7, 6, 5, 4, 3, 2, 1, 0].map (fun j => if i.testBit j then '1' else '0') ++
      Char.ofNat 0 :: zeroed m) =
      String.mk ('0' :: 'b' :: (List.range 32).map (fun k =>
        if i.testBit (if k = 15 then 15 else if k = 16 then 16 else 31 - k)
        then '1' else '0')) := by
    rw [c_string_append]
    · rfl
    · intro c hc
      rcases List.mem_cons.1 hc with rfl | hc
      · decide
      · rcases List.mem_cons.1 hc with rfl | hc
        · decide
        · obtain ⟨j, _, rfl⟩ := List.mem_map.1 hc
          exact digit_ne_nul (i.testBit j)
  rw [hc]
  refine ⟨rfl, ?_⟩
  rw [binary_digits_eq]
  constructor
  · intro h
    have h1 := congrArg (fun s => s.data[17]?) h
    simp only [List.range, List.range.loop] at h1
    simpa [digit_injective] using h1
  · intro h
    congr 3
    apply List.map_congr_left
    intro k hk
    by_cases h15 : k = 15
    · subst h15
      simp [h]
    · by_cases h16 : k = 16
      · subst h16
        simp [h]
      · simp [h15, h16]

/-- A witness for C14 at `i = 32768` and a buffer of 35 characters: bit 15 is
set and bit 16 is not, and the string returned is that of 65536. -/
theorem print_binary_representation_exchanges_middle_digits_witness :
    35 ≤ 35 ∧
    ∃ out, print_binary_representation 32768 (zeroed 35) = some out ∧
      c_string out = "0b00000000000000010000000000000000" ∧
      "0b" ++ String.mk (binary_digits 32768 32) = "0b00000000000000001000000000000000" ∧
      c_string out ≠ "0b" ++ String.mk (binary_digits 32768 32) := by
  obtain ⟨out, h1, h2, h3⟩ :=
    print_binary_representation_exchanges_middle_digits 32768 35 (by decide)
  refine ⟨by decide, out, h1, h2.trans (by decide), by decide, ?_⟩
  intro h
  exact absurd (h3.1 h) (by decide)

end Homework
